import Mathlib

/-!
# Verification development for `go_work/go_base_work`

Shallow embedding of the exercises in `task_one` (slice and string utilities)
and `task_two` (goroutines, channels, locks and atomics) together with the
properties stated about them.

Conventions
* A Go `int` is a Lean `Int` (a `Nat` for a loop variable that only counts
  upward from a literal); where the source can overflow the wrap is explicit.
* A slice that is updated in place is a `List` that is passed through the loop.
* A concurrent function is a transition system: a state, a type of atomic
  actions, a `step` function that returns `none` when the action is not enabled
  (the goroutine is blocked), and `runSchedule`, which folds a schedule, i.e. an
  interleaving of the goroutines' actions, over `step`.
-/

/-! # Definitions -/

namespace Go

/-! ## Machine integers and schedules -/

/-- Two's-complement wrap of a Go `int` (64 bit). -/
def wrapInt (x : Int) : Int :=
  (x + 9223372036854775808) % 18446744073709551616 - 9223372036854775808

/-- Two's-complement wrap of a Go `int32`. -/
def wrapInt32 (x : Int) : Int :=
  (x + 2147483648) % 4294967296 - 2147483648

/-- Folds a schedule (a list of atomic actions) over a step function; `none`
when some action of the schedule is not enabled in the state it meets. -/
def runSchedule {σ α : Type} (step : σ → α → Option σ) : σ → List α → Option σ
  | s, [] => some s
  | s, a :: rest =>
    match step s a with
    | none => none
    | some s' => runSchedule step s' rest

end Go

namespace TaskOne

/-! ## `task_2.go`: `merge` -/

/-- An interval `intervals[i]`, the two-element slice `[start, end]`. -/
abbrev Interval := Int × Int

/-- Go `maxVal`. -/
def maxVal (a b : Int) : Int := if a > b then a else b

/-- Insertion step of the sort by start: `x` is moved left while
`less(x, y)`, i.e. while `x[0] < y[0]`. -/
def insertByStart (x : Interval) : List Interval → List Interval
  | [] => [x]
  | y :: ys => if y.1 ≤ x.1 then y :: insertByStart x ys else x :: y :: ys

/-- The call `sort.Slice(intervals, func(i, j) { intervals[i][0] < intervals[j][0] })`:
the slice ordered by start.  The library sorts a slice of at most 12 elements by
insertion, which is what this definition does; on a longer slice `sort.Slice`
is not stable and may leave intervals with equal starts in another order. -/
def sortByStart (intervals : List Interval) : List Interval :=
  intervals.foldl (fun acc x => insertByStart x acc) []

/-- The body of `for _, interval := range intervals[1:]`, with `res` threaded
through.  `last := res[len(res)-1]`; the test is `interval[0] < last[0]`. -/
def mergeLoop : List Interval → List Interval → List Interval
  | res, [] => res
  | res, interval :: rest =>
    match res.getLast? with
    | none => mergeLoop (res ++ [interval]) rest
    | some last =>
      if interval.1 < last.1 then
        mergeLoop (res.dropLast ++ [(last.1, maxVal last.2 interval.2)]) rest
      else
        mergeLoop (res ++ [interval]) rest

/-- Go `merge`. -/
def merge (intervals : List Interval) : List Interval :=
  match sortByStart intervals with
  | [] => []
  | first :: rest => mergeLoop [first] rest

/-- Two closed intervals share a point. -/
def overlap (a b : Interval) : Prop := a.1 ≤ b.2 ∧ b.1 ≤ a.2

instance (a b : Interval) : Decidable (overlap a b) := by
  unfold overlap; infer_instance

/-! ## `task_2.go`: `removeDuplicates` -/

/-- The loop `for fast := 1; fast < lenth; fast++` of `removeDuplicates`.  The
first argument is the number of iterations left, `lenth - fast`; the result is
the slice after the loop and the final `slow`. -/
def removeDuplicatesLoop : Nat → List Int → Nat → Nat → List Int × Nat
  | 0, nums, slow, _ => (nums, slow)
  | n + 1, nums, slow, fast =>
    if nums.getD fast 0 ≠ nums.getD (fast - 1) 0 then
      removeDuplicatesLoop n (nums.set slow (nums.getD fast 0)) (slow + 1) (fast + 1)
    else
      removeDuplicatesLoop n nums slow (fast + 1)

/-- Go `removeDuplicates`: the slice as the function leaves it, and the
returned length. -/
def removeDuplicates (nums : List Int) : List Int × Nat :=
  if nums.length = 0 then (nums, 0)
  else removeDuplicatesLoop (nums.length - 1) nums 1 1

/-- The values the loop keeps from `rest` when the element before `rest` is
`prev`: every element that differs from its predecessor. -/
def keptAfter : Int → List Int → List Int
  | _, [] => []
  | prev, x :: rest => if x ≠ prev then x :: keptAfter x rest else keptAfter x rest

/-! ## `task_3.go`: `plusOne` -/

/-- The loop `for i := n - 1; i >= 0; i--` of `plusOne`; the argument is `i + 1`.
`some digits` is the early `return digits`, `none` is falling out of the loop. -/
def plusOneLoop (digits : List Int) : Nat → Option (List Int)
  | 0 => none
  | i + 1 =>
    let d := Int.tmod (Go.wrapInt (digits.getD i 0 + 1)) 10
    if d ≠ 0 then some (digits.set i d) else plusOneLoop (digits.set i d) i

/-- Go `plusOne`. -/
def plusOne (digits : List Int) : List Int :=
  match plusOneLoop digits digits.length with
  | some r => r
  | none => (List.replicate (digits.length + 1) 0).set 0 1

/-- Decimal value of a digit list, most significant digit first. -/
def value (ds : List Int) : Int := ds.foldl (fun acc d => acc * 10 + d) 0

/-- Every entry is a decimal digit. -/
def IsDigits (ds : List Int) : Prop := ∀ d ∈ ds, 0 ≤ d ∧ d ≤ 9

/-! ## `task_4.go`: `isValid` -/

/-- The map `pairs` of `isValid`, from a closing bracket to its opening
bracket; a key that is not in the map reads as the zero rune. -/
def pairs (c : Char) : Char :=
  if c = ')' then '(' else if c = ']' then '[' else if c = '}' then '{' else Char.ofNat 0

/-- The loop `for _, char := range s` of `isValid`, followed by the final
`return len(stack) == 0`.  The stack is a list whose head is the top
`stack[len(stack)-1]`. -/
def isValidLoop : List Char → List Char → Bool
  | stack, [] => stack.length == 0
  | stack, char :: rest =>
    if char = '(' ∨ char = '[' ∨ char = '{' then
      isValidLoop (char :: stack) rest
    else
      match stack with
      | [] => false
      | top :: stack' => if pairs char ≠ top then false else isValidLoop stack' rest

/-- Go `isValid`; the string is read rune by rune. -/
def isValid (s : String) : Bool := isValidLoop [] s.toList

/-- The grammar `S -> empty | S S | (S) | [S] | {S}`. -/
inductive WellNested : List Char → Prop
  | empty : WellNested []
  | concat {a b : List Char} : WellNested a → WellNested b → WellNested (a ++ b)
  | paren {a : List Char} : WellNested a → WellNested ('(' :: a ++ [')'])
  | bracket {a : List Char} : WellNested a → WellNested ('[' :: a ++ [']'])
  | brace {a : List Char} : WellNested a → WellNested ('{' :: a ++ ['}'])

/-- An opening bracket and the closing bracket of the same kind. -/
def Matches (o c : Char) : Prop :=
  (o = '(' ∧ c = ')') ∨ (o = '[' ∧ c = ']') ∨ (o = '{' ∧ c = '}')

/-- An opening bracket. -/
def IsOpen (c : Char) : Prop := c = '(' ∨ c = '[' ∨ c = '{'

instance (o c : Char) : Decidable (Matches o c) := by
  unfold Matches; infer_instance

instance (c : Char) : Decidable (IsOpen c) := by
  unfold IsOpen; infer_instance

end TaskOne

namespace TaskTwo

/-! ## `5.go`: `Counter` and `method9` -/

/-- Go `Counter`: `m` is true while the mutex is held. -/
structure Counter where
  m : Bool
  count : Int
  deriving DecidableEq

/-- The call `c.m.Lock()`; `none` when the mutex is held (the caller waits). -/
def Counter.Lock (c : Counter) : Option Counter :=
  if c.m then none else some { c with m := true }

/-- The call `c.m.Unlock()`; `none` when the mutex is not held (a fatal error). -/
def Counter.Unlock (c : Counter) : Option Counter :=
  if c.m then some { c with m := false } else none

/-- Go `Counter.Increment`, run as one step: lock, `c.count++`, deferred unlock. -/
def Counter.Increment (c : Counter) : Option Counter := do
  let c ← c.Lock
  let c := { c with count := Go.wrapInt (c.count + 1) }
  c.Unlock

/-- Go `Counter.GetValue`, run as one step: lock, read `c.count`, deferred
unlock; the counter afterwards and the value returned. -/
def Counter.GetValue (c : Counter) : Option (Counter × Int) := do
  let c ← c.Lock
  let v := c.count
  let c ← c.Unlock
  pure (c, v)

/-- A call on the shared counter. -/
inductive CounterCall where
  | increment
  | getValue
  deriving DecidableEq

/-- One call in an interleaving: the state is the counter and the values the
`GetValue` calls returned so far, oldest first. -/
def Counter.call (s : Counter × List Int) : CounterCall → Option (Counter × List Int)
  | .increment => (s.1.Increment).map (fun c => (c, s.2))
  | .getValue => (s.1.GetValue).map (fun r => (r.1, s.2 ++ [r.2]))

/-- A `Counter` with `count: 0`. -/
def Counter.zero : Counter := { m := false, count := 0 }

/-- State of `method9`: the counter, the loop variable `i` of the spawning
loop, the loop variable `j` of every goroutine started so far, and the value
printed at the end. -/
structure Method9 where
  counter : Counter
  i : Nat
  js : List Nat
  printed : Option Int
  deriving DecidableEq

/-- Atomic actions of `method9`. -/
inductive Act9 where
  /-- main: `go func() ...` and `i++` -/
  | spawn
  /-- goroutine `k`: `counter.Increment()` and `j++` -/
  | inc (k : Nat)
  /-- main: `time.Sleep(time.Second)` is over; `counter.GetValue()` is printed -/
  | print
  deriving DecidableEq

/-- State of `method9` on entry. -/
def Method9.init : Method9 :=
  { counter := { m := false, count := 0 }, i := 0, js := [], printed := none }

/-- One atomic action of `method9`.  Nothing but the end of the spawning loop
guards `print`: the sleep waits for no goroutine. -/
def Method9.step (s : Method9) : Act9 → Option Method9
  | .spawn =>
    if s.i < 10 then some { s with i := s.i + 1, js := s.js ++ [0] } else none
  | .inc k =>
    match s.js[k]? with
    | none => none
    | some j =>
      if j < 1000 then
        match s.counter.Increment with
        | none => none
        | some c => some { s with counter := c, js := s.js.set k (j + 1) }
      else none
  | .print =>
    if ¬ s.i < 10 ∧ s.printed = none then
      match s.counter.GetValue with
      | none => none
      | some (c, v) => some { s with counter := c, printed := some v }
    else none

/-! ## `5.go`: `method10` -/

/-- One goroutine of `method10`: its loop variable `j`, and whether the
deferred `wg.Done()` has run. -/
structure Adder where
  j : Nat
  exited : Bool
  deriving DecidableEq

/-- State of `method10`: the shared `counter` (an `int32`), the `WaitGroup`
counter, the loop variable `i` of the spawning loop, the goroutines started so
far, and `final` once main has loaded it. -/
structure Method10 where
  counter : Int
  wg : Int
  i : Nat
  adders : List Adder
  final : Option Int
  deriving DecidableEq

/-- Atomic actions of `method10`. -/
inductive Act10 where
  /-- main: `wg.Add(1); go func() ...` and `i++` -/
  | spawn
  /-- goroutine `k`: `atomic.AddInt32(&counter, 1)` and `j++` -/
  | add (k : Nat)
  /-- goroutine `k`: the loop is over, the deferred `wg.Done()` runs -/
  | done (k : Nat)
  /-- main: `wg.Wait()` returns and `final := atomic.LoadInt32(&counter)` -/
  | waitLoad
  deriving DecidableEq

/-- State of `method10` on entry. -/
def Method10.init : Method10 :=
  { counter := 0, wg := 0, i := 0, adders := [], final := none }

/-- One atomic action of `method10`. -/
def Method10.step (s : Method10) : Act10 → Option Method10
  | .spawn =>
    if s.i < 10 then
      some { s with wg := s.wg + 1, i := s.i + 1,
                    adders := s.adders ++ [{ j := 0, exited := false }] }
    else none
  | .add k =>
    match s.adders[k]? with
    | none => none
    | some w =>
      if w.j < 1000 then
        some { s with counter := Go.wrapInt32 (s.counter + 1),
                      adders := s.adders.set k { w with j := w.j + 1 } }
      else none
  | .done k =>
    match s.adders[k]? with
    | none => none
    | some w =>
      if ¬ w.j < 1000 ∧ w.exited = false then
        some { s with wg := s.wg - 1, adders := s.adders.set k { w with exited := true } }
      else none
  | .waitLoad =>
    if ¬ s.i < 10 ∧ s.wg = 0 ∧ s.final = none then
      some { s with final := some s.counter }
    else none

/-- Work left in a state of `method10`: the number of actions of any schedule
that starts there is at most this. -/
def Method10.fuel (s : Method10) : Nat :=
  (10 - s.i) * 1002 + (s.adders.map (fun w => (1000 - w.j) + (if w.exited then 0 else 1))).sum +
    (if s.final = none then 1 else 0)

/-- Invariant of `method10`. -/
structure Method10.Inv (s : Method10) : Prop where
  len : s.adders.length = s.i
  bound : s.i ≤ 10
  range : ∀ w ∈ s.adders, w.j ≤ 1000 ∧ (w.exited = true → w.j = 1000)
  sum : s.counter = ((s.adders.map (fun w => w.j)).sum : Nat)
  live : s.wg = ((s.adders.map (fun w => if w.exited then 0 else 1)).sum : Nat)
  loaded : ∀ v, s.final = some v →
    v = 10000 ∧ s.i = 10 ∧ ∀ w ∈ s.adders, w.j = 1000 ∧ w.exited = true

/-! ## `4.go`: `method8` -/

/-- Program counter of the producer goroutine of `method8`. -/
inductive Producer8 where
  /-- not started: `go func()` has not run yet -/
  | notStarted
  /-- in the loop with `i <= 100`, about to run `ch <- i` -/
  | send (i : Nat)
  /-- the loop is over, about to run `close(ch)` -/
  | close
  /-- after `close(ch)`, before the deferred `wg.Done()` -/
  | done
  | exited
  deriving DecidableEq

/-- Program counter of the consumer goroutine of `method8`. -/
inductive Consumer8 where
  /-- not started: `go func()` has not run yet -/
  | notStarted
  /-- in `for num := range ch`, about to receive -/
  | recv
  /-- the range loop is over, the deferred `wg.Done()` has not run -/
  | done
  | exited
  deriving DecidableEq

/-- State of `method8`.  `main` counts the statements main has finished: 0 on
entry, 1 after the producer is started, 2 after the consumer is started, 3 after
`wg.Wait()` has returned.  `ch` is the buffer of the channel, oldest value
first; `received` lists the values the consumer printed; `ended` counts how
often the consumer saw the channel closed and drained. -/
structure Method8 where
  main : Nat
  wg : Int
  ch : List Int
  closed : Bool
  panicked : Bool
  prod : Producer8
  cons : Consumer8
  received : List Int
  ended : Nat
  deriving DecidableEq

/-- Atomic actions of `method8`. -/
inductive Act8 where
  /-- main: `wg.Add(1); go func() ...` (producer) -/
  | startProducer
  /-- main: `wg.Add(1); go func() ...` (consumer) -/
  | startConsumer
  /-- producer: `ch <- i; i++` and the loop test -/
  | send
  /-- producer: `close(ch)` -/
  | close
  /-- producer: deferred `wg.Done()` -/
  | producerDone
  /-- consumer: one receive of `range ch` -/
  | recv
  /-- consumer: deferred `wg.Done()` -/
  | consumerDone
  /-- main: `wg.Wait()` returns -/
  | wait
  deriving DecidableEq

/-- State of `method8` on entry: `ch := make(chan int, 10)`. -/
def Method8.init : Method8 :=
  { main := 0, wg := 0, ch := [], closed := false, panicked := false,
    prod := .notStarted, cons := .notStarted, received := [], ended := 0 }

/-- One atomic action of `method8`.  A send waits while the buffer holds 10
values; a receive waits while the buffer is empty and the channel is open; a
send on, or a close of, a closed channel panics. -/
def Method8.step (s : Method8) : Act8 → Option Method8
  | .startProducer =>
    if s.main = 0 ∧ s.panicked = false then
      some { s with main := 1, wg := s.wg + 1, prod := .send 1 }
    else none
  | .startConsumer =>
    if s.main = 1 ∧ s.panicked = false then
      some { s with main := 2, wg := s.wg + 1, cons := .recv }
    else none
  | .send =>
    match s.prod with
    | .send i =>
      if s.panicked = true then none
      else if s.closed = true then some { s with panicked := true }
      else if s.ch.length < 10 then
        some { s with ch := s.ch ++ [(i : Int)],
                      prod := if i + 1 ≤ 100 then .send (i + 1) else .close }
      else none
    | _ => none
  | .close =>
    match s.prod with
    | .close =>
      if s.panicked = true then none
      else if s.closed = true then some { s with panicked := true }
      else some { s with closed := true, prod := .done }
    | _ => none
  | .producerDone =>
    match s.prod with
    | .done =>
      if s.panicked = true then none
      else some { s with wg := s.wg - 1, prod := .exited }
    | _ => none
  | .recv =>
    match s.cons with
    | .recv =>
      if s.panicked = true then none
      else
        match s.ch with
        | v :: rest => some { s with ch := rest, received := s.received ++ [v] }
        | [] =>
          if s.closed = true then some { s with cons := .done, ended := s.ended + 1 }
          else none
    | _ => none
  | .consumerDone =>
    match s.cons with
    | .done =>
      if s.panicked = true then none
      else some { s with wg := s.wg - 1, cons := .exited }
    | _ => none
  | .wait =>
    if s.main = 2 ∧ s.wg = 0 ∧ s.panicked = false then some { s with main := 3 } else none

/-- Number of values the producer has sent when it is at a program point. -/
def Producer8.sent : Producer8 → Nat
  | .notStarted => 0
  | .send i => i - 1
  | _ => 100

/-- Actions the producer still has to take. -/
def Producer8.fuel : Producer8 → Nat
  | .notStarted => 103
  | .send i => 103 - i
  | .close => 2
  | .done => 1
  | .exited => 0

/-- Actions the consumer still has to take, receives of values apart. -/
def Consumer8.fuel : Consumer8 → Nat
  | .notStarted => 3
  | .recv => 2
  | .done => 1
  | .exited => 0

/-- Work left in a state of `method8`. -/
def Method8.fuel (s : Method8) : Nat :=
  (3 - s.main) + s.prod.fuel + (100 - s.received.length) + s.cons.fuel

/-- The values `1, 2, ..., n` as sent on the channel. -/
def upTo (n : Nat) : List Int := (List.range' 1 n).map (fun (k : Nat) => (k : Int))

/-- Invariant of `method8`. -/
structure Method8.Inv (s : Method8) : Prop where
  noPanic : s.panicked = false
  mainLe : s.main ≤ 3
  prodStarted : s.prod = .notStarted ↔ s.main = 0
  consStarted : s.cons = .notStarted ↔ s.main ≤ 1
  sendRange : ∀ i, s.prod = .send i → 1 ≤ i ∧ i ≤ 100
  fifo : s.received ++ s.ch = upTo s.prod.sent
  room : s.ch.length ≤ 10
  closedIff : s.closed = true ↔ (s.prod = .done ∨ s.prod = .exited)
  running : (s.cons = .notStarted ∨ s.cons = .recv) → s.ended = 0
  drained : (s.cons = .done ∨ s.cons = .exited) → s.ended = 1 ∧ s.ch = [] ∧ s.closed = true
  counter : s.wg = (if s.prod = .notStarted ∨ s.prod = .exited then 0 else 1) +
    (if s.cons = .notStarted ∨ s.cons = .exited then 0 else 1)
  returned : s.main = 3 → s.prod = .exited ∧ s.cons = .exited

/-! ## `2.go`: `method4` -/

/-- How the call `t()` of a task ends: it returns, or it panics. -/
inductive Outcome where
  | returns
  | panics
  deriving DecidableEq

/-- Go `Result`.  `Duration` and `StartTime` are clock readings and are not
modelled; the struct has no other field. -/
structure Result where
  TaskID : Nat
  deriving DecidableEq

/-- Program counter of a worker goroutine of `method4`. -/
inductive Worker4 where
  /-- started, `t()` has not ended -/
  | running
  /-- after `t()` has returned, about to run `resultChan <- Result{...}` -/
  | finished
  /-- the result is sent, the deferred `wg.Done()` has not run -/
  | sent
  /-- the goroutine has ended normally -/
  | exited
  /-- the goroutine is panicking, the deferred `wg.Done()` has not run -/
  | panicking
  /-- the deferred call has run and nothing recovered the panic: the runtime is
  about to end the process -/
  | fatal
  deriving DecidableEq

/-- Program counter of the goroutine that closes `resultChan`. -/
inductive Closer4 where
  | notStarted
  /-- in `wg.Wait()` -/
  | waiting
  /-- after `close(resultChan)` -/
  | exited
  deriving DecidableEq

/-- State of `method4`: the loop variable `i` of the spawning loop, the
`WaitGroup` counter, the workers started so far, the closing goroutine, the
buffer of `resultChan` (oldest first), whether the process has been ended by a
panic, the results the collecting loop has printed, and whether `method4` has
returned. -/
structure Method4 where
  i : Nat
  wg : Int
  workers : List Worker4
  closer : Closer4
  resultChan : List Result
  closed : Bool
  crashed : Bool
  collected : List Result
  returned : Bool
  deriving DecidableEq

/-- Atomic actions of `method4`. -/
inductive Act4 where
  /-- main: `wg.Add(1); go func(id, t) ...` for the next task -/
  | spawn
  /-- main: `go func() { wg.Wait(); close(resultChan) }()` -/
  | startCloser
  /-- worker `k`: the call `t()` ends -/
  | taskEnds (k : Nat)
  /-- worker `k`: `resultChan <- Result{TaskID: id, ...}` -/
  | sendResult (k : Nat)
  /-- worker `k`: deferred `wg.Done()` -/
  | workerDone (k : Nat)
  /-- the panic of worker `k` ends the process -/
  | crash (k : Nat)
  /-- closing goroutine: `wg.Wait()` returns and `close(resultChan)` runs -/
  | close
  /-- main: one receive of `for result := range resultChan` -/
  | collect
  deriving DecidableEq

/-- State of `method4` on entry. -/
def Method4.init : Method4 :=
  { i := 0, wg := 0, workers := [], closer := .notStarted, resultChan := [], closed := false,
    crashed := false, collected := [], returned := false }

/-- One atomic action of `method4` on the task list `tasks`; the capacity of
`resultChan` is `len(tasks)`.  No goroutine runs once the process has ended. -/
def Method4.step (tasks : List Outcome) (s : Method4) (a : Act4) : Option Method4 :=
  if s.crashed = true then none
  else
    match a with
    | .spawn =>
      if s.i < tasks.length then
        some { s with i := s.i + 1, wg := s.wg + 1, workers := s.workers ++ [.running] }
      else none
    | .startCloser =>
      if ¬ s.i < tasks.length ∧ s.closer = .notStarted then some { s with closer := .waiting }
      else none
    | .taskEnds k =>
      match s.workers[k]?, tasks[k]? with
      | some .running, some .returns => some { s with workers := s.workers.set k .finished }
      | some .running, some .panics => some { s with workers := s.workers.set k .panicking }
      | _, _ => none
    | .sendResult k =>
      match s.workers[k]? with
      | some .finished =>
        if s.closed = true then some { s with workers := s.workers.set k .panicking }
        else if s.resultChan.length < tasks.length then
          some { s with resultChan := s.resultChan ++ [{ TaskID := k }],
                        workers := s.workers.set k .sent }
        else none
      | _ => none
    | .workerDone k =>
      match s.workers[k]? with
      | some .sent => some { s with wg := s.wg - 1, workers := s.workers.set k .exited }
      | some .panicking => some { s with wg := s.wg - 1, workers := s.workers.set k .fatal }
      | _ => none
    | .crash k =>
      match s.workers[k]? with
      | some .fatal => some { s with crashed := true }
      | _ => none
    | .close =>
      if s.closer = .waiting ∧ s.wg = 0 then
        if s.closed = true then some { s with crashed := true }
        else some { s with closed := true, closer := .exited }
      else none
    | .collect =>
      if s.closer ≠ .notStarted ∧ s.returned = false then
        match s.resultChan with
        | r :: rest => some { s with resultChan := rest, collected := s.collected ++ [r] }
        | [] => if s.closed = true then some { s with returned := true } else none
      else none

/-- The task ids of the results sent so far: those collected, then those
still in the buffer. -/
def Method4.ids (s : Method4) : List Nat :=
  (s.collected ++ s.resultChan).map (fun r => r.TaskID)

/-- Actions a worker still has to take, the receive of its result included. -/
def Worker4.fuel : Worker4 → Nat
  | .running => 4
  | .finished => 3
  | .sent => 1
  | .exited => 0
  | .panicking => 1
  | .fatal => 0

/-- Actions the closing goroutine still has to take. -/
def Closer4.fuel : Closer4 → Nat
  | .notStarted => 2
  | .waiting => 1
  | .exited => 0

/-- Work left in a state of `method4` on `tasks`. -/
def Method4.fuel (tasks : List Outcome) (s : Method4) : Nat :=
  (tasks.length - s.i) * 5 + (s.workers.map Worker4.fuel).sum + s.closer.fuel +
    s.resultChan.length + (if s.returned = true then 0 else 1) + (if s.crashed = true then 0 else 1)

/-- A worker that holds the `WaitGroup`: its `wg.Done()` has not run. -/
def Worker4.live : Worker4 → Nat
  | .exited => 0
  | .fatal => 0
  | _ => 1

/-- Invariant of `method4` on `tasks`. -/
structure Method4.Inv (tasks : List Outcome) (s : Method4) : Prop where
  len : s.workers.length = s.i
  bound : s.i ≤ tasks.length
  closerI : s.closer ≠ .notStarted → s.i = tasks.length
  idsNodup : s.ids.Nodup
  idsMem : ∀ k : Nat, k ∈ s.ids ↔ (s.workers[k]? = some .sent ∨ s.workers[k]? = some .exited)
  ok : ∀ k : Nat, (s.workers[k]? = some .finished ∨ s.workers[k]? = some .sent ∨
    s.workers[k]? = some .exited) → tasks[k]? = some .returns
  bad : ∀ k : Nat, (s.workers[k]? = some .panicking ∨ s.workers[k]? = some .fatal) →
    tasks[k]? = some .panics
  live : s.wg = (((s.workers.map Worker4.live).sum : Nat) : Int)
  closedIff : s.closed = true ↔ s.closer = .exited
  closerExited : s.closer = .exited → ∀ w ∈ s.workers, w = .exited ∨ w = .fatal
  crashedBy : s.crashed = true → ∃ k : Nat, s.workers[k]? = some .fatal
  ret : s.returned = true → s.closed = true ∧ s.resultChan = []

/-! ## `4.go`: `send`, `receive` and `method7` -/

/-- Program counter of the goroutine that runs `send(ch)`. -/
inductive Sender7 where
  /-- not started: `go send(ch)` has not run yet -/
  | notStarted
  /-- in the loop with `i <= 10`, about to run `ch <- i` -/
  | send (i : Nat)
  /-- after the loop, about to run `close(ch)` -/
  | close
  | exited
  deriving DecidableEq

/-- Program counter of the goroutine that runs `receive(ch)`. -/
inductive Receiver7 where
  /-- not started: `go receive(ch)` has not run yet -/
  | notStarted
  /-- in `for v := range ch`, about to receive -/
  | recv
  | exited
  deriving DecidableEq

/-- State of `method7`.  `main` counts the statements main has finished: 0 on
entry, 1 after `go send(ch)`, 2 after `go receive(ch)` (main is in its select
loop), 3 after `method7` has returned.  `ch` is the buffer of the channel,
oldest value first; `received` lists the values `receive` printed, `selected`
the values the select loop of main printed; `enqueued` is the history of all
values put into the channel; `timedOut` records a return through
`case <-timeout`. -/
structure Method7 where
  main : Nat
  ch : List Int
  closed : Bool
  panicked : Bool
  sender : Sender7
  receiver : Receiver7
  received : List Int
  selected : List Int
  enqueued : List Int
  timedOut : Bool
  deriving DecidableEq

/-- Atomic actions of `method7`. -/
inductive Act7 where
  /-- main: `go send(ch)` -/
  | startSend
  /-- main: `go receive(ch)` and `timeout := time.After(2 * time.Second)` -/
  | startReceive
  /-- the goroutine `send`: `ch <- i; i++` and the loop test -/
  | send
  /-- the goroutine `send`: `close(ch)` -/
  | close
  /-- the goroutine `receive`: one receive of `range ch` -/
  | receive
  /-- main: the select takes `case v, ok := <-ch` -/
  | selectRecv
  /-- main: the select takes `case <-timeout` -/
  | selectTimeout
  /-- main: the select takes `default` -/
  | selectDefault
  deriving DecidableEq

/-- State of `method7` on entry: `ch := make(chan int, 10)`. -/
def Method7.init : Method7 :=
  { main := 0, ch := [], closed := false, panicked := false, sender := .notStarted,
    receiver := .notStarted, received := [], selected := [], enqueued := [], timedOut := false }

/-- One atomic action of `method7`.  Both `receive` and the select loop of main
take values out of `ch`.  The timer is not modelled: `case <-timeout` may be
taken at any turn of the loop; `default` is taken only when `ch` has nothing
to deliver. -/
def Method7.step (s : Method7) : Act7 → Option Method7
  | .startSend =>
    if s.main = 0 ∧ s.panicked = false then some { s with main := 1, sender := .send 1 }
    else none
  | .startReceive =>
    if s.main = 1 ∧ s.panicked = false then some { s with main := 2, receiver := .recv }
    else none
  | .send =>
    match s.sender with
    | .send i =>
      if s.panicked = true then none
      else if s.closed = true then some { s with panicked := true }
      else if s.ch.length < 10 then
        some { s with ch := s.ch ++ [(i : Int)], enqueued := s.enqueued ++ [(i : Int)],
                      sender := if i + 1 ≤ 10 then .send (i + 1) else .close }
      else none
    | _ => none
  | .close =>
    match s.sender with
    | .close =>
      if s.panicked = true then none
      else if s.closed = true then some { s with panicked := true }
      else some { s with closed := true, sender := .exited }
    | _ => none
  | .receive =>
    match s.receiver with
    | .recv =>
      if s.panicked = true then none
      else
        match s.ch with
        | v :: rest => some { s with ch := rest, received := s.received ++ [v] }
        | [] => if s.closed = true then some { s with receiver := .exited } else none
    | _ => none
  | .selectRecv =>
    if s.main = 2 ∧ s.panicked = false then
      match s.ch with
      | v :: rest => some { s with ch := rest, selected := s.selected ++ [v] }
      | [] => if s.closed = true then some { s with main := 3 } else none
    else none
  | .selectTimeout =>
    if s.main = 2 ∧ s.panicked = false then some { s with main := 3, timedOut := true }
    else none
  | .selectDefault =>
    if s.main = 2 ∧ s.panicked = false ∧ s.ch = [] ∧ s.closed = false then some s else none

/-- Number of values `send` has put into the channel at a program point. -/
def Sender7.sent : Sender7 → Nat
  | .notStarted => 0
  | .send i => i - 1
  | _ => 10

/-- Actions `send` still has to take, its start included. -/
def Sender7.fuel : Sender7 → Nat
  | .notStarted => 12
  | .send i => 12 - i
  | .close => 1
  | .exited => 0

/-- The schedule in which main's select loop takes the first value and
`receive` the other nine. -/
def Method7.raced : List Act7 :=
  [.startSend, .send, .startReceive, .selectRecv] ++ List.replicate 9 .send ++ [.close] ++
    List.replicate 9 .receive ++ [.receive, .selectRecv]

/-- Invariant of `method7`. -/
structure Method7.Inv (s : Method7) : Prop where
  noPanic : s.panicked = false
  senderStarted : s.sender = .notStarted ↔ s.main = 0
  sendRange : ∀ i, s.sender = .send i → 1 ≤ i ∧ i ≤ 10
  log : s.enqueued = upTo s.sender.sent
  room : s.ch.length ≤ s.enqueued.length
  closedIff : s.closed = true ↔ s.sender = .exited

/-- The values put into the channel of `method8` so far: those the consumer
has received, then those still buffered. -/
def Method8.enqueued (s : Method8) : List Int := s.received ++ s.ch

/-- Steps worker `k` is away from ending the process, when its task panics:
3 before the call `t()` has ended (or before the worker is started), 2 while it
is panicking, 1 when the runtime is about to end the process. -/
def Worker4.crashPhase : Option Worker4 → Nat
  | some .panicking => 2
  | some .fatal => 1
  | _ => 3

/-- Actions left until the panic of task `k` has ended the process. -/
def Method4.crashFuel (tasks : List Outcome) (k : Nat) (s : Method4) : Nat :=
  if s.crashed = true then 0
  else (tasks.length - s.i) + Worker4.crashPhase s.workers[k]?

end TaskTwo

/-! # Theorems -/

namespace Go

theorem runSchedule_append {σ α : Type} (step : σ → α → Option σ) (a b : List α) :
    ∀ s, runSchedule step s (a ++ b) = (runSchedule step s a).bind (fun t => runSchedule step t b) := by
  induction a with
  | nil => intro s; rfl
  | cons x a ih =>
    intro s
    simp only [List.cons_append, runSchedule]
    cases step s x with
    | none => rfl
    | some t => exact ih t

/-- An invariant that every enabled action preserves holds after every schedule. -/
theorem runSchedule_invariant {σ α : Type} (step : σ → α → Option σ) (Inv : σ → Prop)
    (hstep : ∀ s a t, Inv s → step s a = some t → Inv t) :
    ∀ (sched : List α) (s t : σ), Inv s → runSchedule step s sched = some t → Inv t := by
  intro sched
  induction sched with
  | nil => intro s t hs h; simp only [runSchedule, Option.some.injEq] at h; exact h ▸ hs
  | cons a rest ih =>
    intro s t hs h
    simp only [runSchedule] at h
    cases hsa : step s a with
    | none => rw [hsa] at h; cases h
    | some u => rw [hsa] at h; exact ih u t (hstep s a u hs hsa) h

/-- When every enabled action uses up at least one unit of `fuel`, a schedule is
no longer than the fuel it consumed. -/
theorem runSchedule_length {σ α : Type} (step : σ → α → Option σ) (Inv : σ → Prop)
    (fuel : σ → Nat) (hstep : ∀ s a t, Inv s → step s a = some t → Inv t)
    (hdec : ∀ s a t, Inv s → step s a = some t → fuel t + 1 ≤ fuel s) :
    ∀ (sched : List α) (s t : σ), Inv s → runSchedule step s sched = some t →
      sched.length + fuel t ≤ fuel s := by
  intro sched
  induction sched with
  | nil => intro s t _ h; simp only [runSchedule, Option.some.injEq] at h; subst h; simp
  | cons a rest ih =>
    intro s t hs h
    simp only [runSchedule] at h
    cases hsa : step s a with
    | none => rw [hsa] at h; cases h
    | some u =>
      rw [hsa] at h
      have h1 := ih u t (hstep s a u hs hsa) h
      have h2 := hdec s a u hs hsa
      simp only [List.length_cons]; omega

/-- When some action is enabled in every state that is not final, and every
action uses up fuel, every state can be run on to a final state. -/
theorem runSchedule_complete {σ α : Type} (step : σ → α → Option σ) (Inv : σ → Prop)
    (fin : σ → Prop) (fuel : σ → Nat)
    (hstep : ∀ s a t, Inv s → step s a = some t → Inv t)
    (hdec : ∀ s a t, Inv s → step s a = some t → fuel t + 1 ≤ fuel s)
    (hprog : ∀ s, Inv s → ¬ fin s → ∃ a t, step s a = some t) :
    ∀ (n : Nat) (s : σ), fuel s ≤ n → Inv s →
      ∃ rest t, runSchedule step s rest = some t ∧ fin t := by
  intro n
  induction n with
  | zero =>
    intro s hn hs
    by_cases hf : fin s
    · exact ⟨[], s, rfl, hf⟩
    · obtain ⟨a, t, hat⟩ := hprog s hs hf
      have := hdec s a t hs hat
      omega
  | succ n ih =>
    intro s hn hs
    by_cases hf : fin s
    · exact ⟨[], s, rfl, hf⟩
    · obtain ⟨a, t, hat⟩ := hprog s hs hf
      have hd := hdec s a t hs hat
      obtain ⟨rest, u, hr, hu⟩ := ih t (by omega) (hstep s a t hs hat)
      exact ⟨a :: rest, u, by simp only [runSchedule, hat]; exact hr, hu⟩

theorem sum_map_set {β : Type} (f : β → Nat) (x : β) :
    ∀ (l : List β) (k : Nat) (w : β), l[k]? = some w →
      ((l.set k x).map f).sum + f w = (l.map f).sum + f x := by
  intro l
  induction l with
  | nil => intro k w h; simp at h
  | cons y l ih =>
    intro k w h
    cases k with
    | zero =>
      simp only [List.getElem?_cons_zero, Option.some.injEq] at h
      subst h
      simp only [List.set_cons_zero, List.map_cons, List.sum_cons]; omega
    | succ k =>
      simp only [List.getElem?_cons_succ] at h
      have := ih k w h
      simp only [List.set_cons_succ, List.map_cons, List.sum_cons]; omega

theorem sum_map_le {β : Type} (f : β → Nat) (b : Nat) :
    ∀ (l : List β), (∀ w ∈ l, f w ≤ b) → (l.map f).sum ≤ b * l.length := by
  intro l
  induction l with
  | nil => intro _; simp
  | cons y l ih =>
    intro h
    have h1 := h y (by simp)
    have h2 := ih (fun w hw => h w (by simp [hw]))
    simp only [List.map_cons, List.sum_cons, List.length_cons]
    rw [Nat.mul_succ]; omega

theorem sum_map_eq {β : Type} (f : β → Nat) (b : Nat) :
    ∀ (l : List β), (∀ w ∈ l, f w = b) → (l.map f).sum = b * l.length := by
  intro l
  induction l with
  | nil => intro _; simp
  | cons y l ih =>
    intro h
    have h1 := h y (by simp)
    have h2 := ih (fun w hw => h w (by simp [hw]))
    simp only [List.map_cons, List.sum_cons, List.length_cons]
    rw [Nat.mul_succ]; omega

theorem sum_map_eq_zero {β : Type} (f : β → Nat) :
    ∀ (l : List β), (l.map f).sum = 0 → ∀ w ∈ l, f w = 0 := by
  intro l
  induction l with
  | nil => intro _ w hw; simp at hw
  | cons y l ih =>
    intro h w hw
    simp only [List.map_cons, List.sum_cons] at h
    rcases List.mem_cons.1 hw with rfl | hw
    · omega
    · exact ih (by omega) w hw

theorem exists_index_of_mem {β : Type} {l : List β} {w : β} (h : w ∈ l) :
    ∃ k : Nat, l[k]? = some w := by
  obtain ⟨k, hk, rfl⟩ := List.getElem_of_mem h
  exact ⟨k, List.getElem?_eq_getElem hk⟩

theorem wrapInt32_small (x : Int) (h0 : 0 ≤ x) (h1 : x ≤ 10000) : wrapInt32 x = x := by
  unfold wrapInt32; omega

theorem wrapInt_small (x : Int) (h0 : 0 ≤ x) (h1 : x < 9223372036854775808) : wrapInt x = x := by
  unfold wrapInt; omega

end Go

namespace TaskOne

/-- C1: on the input `[[1,3],[2,6]]` `merge` returns `[[1,3],[2,6]]`, two
intervals that overlap, and not the single interval `[1,6]`: the test
`interval[0] < last[0]` compares the start with the previous start where the
comment above it compares it with the previous end. -/
theorem merge_overlapping_pair_not_merged :
    merge [(1, 3), (2, 6)] = [(1, 3), (2, 6)] ∧
      overlap (1, 3) (2, 6) ∧ merge [(1, 3), (2, 6)] ≠ [(1, 6)] := by
  decide

theorem mem_insertByStart (x y : Interval) :
    ∀ l : List Interval, y ∈ insertByStart x l ↔ y = x ∨ y ∈ l := by
  intro l
  induction l with
  | nil => simp [insertByStart]
  | cons z zs ih =>
    unfold insertByStart
    split
    · simp only [List.mem_cons, ih]; tauto
    · simp only [List.mem_cons]

theorem insertByStart_sorted (x : Interval) :
    ∀ l : List Interval, l.Pairwise (fun a b => a.1 ≤ b.1) →
      (insertByStart x l).Pairwise (fun a b => a.1 ≤ b.1) := by
  intro l
  induction l with
  | nil => intro _; simp [insertByStart]
  | cons z zs ih =>
    intro h
    obtain ⟨hz, hzs⟩ := List.pairwise_cons.1 h
    unfold insertByStart
    split
    · next hle =>
      refine List.pairwise_cons.2 ⟨?_, ih hzs⟩
      intro y hy
      rcases (mem_insertByStart x y zs).1 hy with rfl | hy
      · exact hle
      · exact hz y hy
    · next hlt =>
      refine List.pairwise_cons.2 ⟨?_, h⟩
      intro y hy
      have hxz : x.1 ≤ z.1 := by omega
      rcases List.mem_cons.1 hy with rfl | hy
      · exact hxz
      · exact le_trans hxz (hz y hy)

theorem sortByStart_sorted (intervals : List Interval) :
    (sortByStart intervals).Pairwise (fun a b => a.1 ≤ b.1) := by
  unfold sortByStart
  have key : ∀ (l acc : List Interval), acc.Pairwise (fun a b => a.1 ≤ b.1) →
      (l.foldl (fun acc x => insertByStart x acc) acc).Pairwise (fun a b => a.1 ≤ b.1) := by
    intro l
    induction l with
    | nil => intro acc h; exact h
    | cons x xs ih => intro acc h; exact ih _ (insertByStart_sorted x acc h)
  exact key intervals [] List.Pairwise.nil

/-- On a slice ordered by start the test `interval[0] < last[0]` never
succeeds: the loop appends every interval. -/
theorem mergeLoop_of_sorted :
    ∀ (rest res : List Interval), (res ++ rest).Pairwise (fun a b => a.1 ≤ b.1) →
      mergeLoop res rest = res ++ rest := by
  intro rest
  induction rest with
  | nil => intro res _; simp [mergeLoop]
  | cons x rest ih =>
    intro res h
    have hnext : mergeLoop (res ++ [x]) rest = res ++ x :: rest := by
      rw [ih (res ++ [x]) (by simpa using h)]; simp
    unfold mergeLoop
    cases hl : res.getLast? with
    | none => exact hnext
    | some last =>
      have hmem : last ∈ res := List.mem_of_getLast?_eq_some hl
      have hle : last.1 ≤ x.1 := (List.pairwise_append.1 h).2.2 last hmem x (by simp)
      simp only
      rw [if_neg (by omega)]
      exact hnext

/-- What `merge` computes: the input ordered by start, nothing merged. -/
theorem merge_eq_sortByStart (intervals : List Interval) :
    merge intervals = sortByStart intervals := by
  have hs := sortByStart_sorted intervals
  unfold merge
  cases h : sortByStart intervals with
  | nil => rfl
  | cons first rest =>
    rw [h] at hs
    simpa using mergeLoop_of_sorted rest [first] (by simpa using hs)

theorem removeDuplicatesLoop_spec :
    ∀ (n : Nat) (nums : List Int) (slow fast : Nat),
      1 ≤ fast → slow ≤ fast → fast + n = nums.length →
      (removeDuplicatesLoop n nums slow fast).2 =
          slow + (keptAfter (nums.getD (fast - 1) 0) (nums.drop fast)).length ∧
        (removeDuplicatesLoop n nums slow fast).1.take (removeDuplicatesLoop n nums slow fast).2 =
          nums.take slow ++ keptAfter (nums.getD (fast - 1) 0) (nums.drop fast) ∧
        (removeDuplicatesLoop n nums slow fast).1.length = nums.length := by
  intro n
  induction n with
  | zero =>
    intro nums slow fast _ _ hlen
    have hd : nums.drop fast = [] := List.drop_eq_nil_of_le (by omega)
    simp [removeDuplicatesLoop, hd, keptAfter]
  | succ n ih =>
    intro nums slow fast h1 hsf hlen
    have hfl : fast < nums.length := by omega
    have hdrop : nums.drop fast = nums.getD fast 0 :: nums.drop (fast + 1) := by
      rw [List.getD_eq_getElem?_getD, List.getElem?_eq_getElem hfl, Option.getD_some]
      exact List.drop_eq_getElem_cons hfl
    rw [hdrop]
    unfold removeDuplicatesLoop keptAfter
    by_cases hne : nums.getD fast 0 ≠ nums.getD (fast - 1) 0
    · simp only [hne, if_true, ne_eq, not_false_eq_true]
      have hsl : slow < nums.length := by omega
      have hget : (nums.set slow (nums.getD fast 0)).getD (fast + 1 - 1) 0 = nums.getD fast 0 := by
        simp only [Nat.add_sub_cancel, List.getD_eq_getElem?_getD, List.getElem?_set]
        by_cases hs : slow = fast
        · simp [hs, hfl]
        · simp [hs]
      have hdr : (nums.set slow (nums.getD fast 0)).drop (fast + 1) = nums.drop (fast + 1) := by
        rw [List.drop_set_of_lt _ _ (by omega)]
      have htk : (nums.set slow (nums.getD fast 0)).take (slow + 1) =
          nums.take slow ++ [nums.getD fast 0] := by
        rw [List.take_succ, List.getElem?_set]
        rw [List.set_take, List.set_eq_of_length_le (by simp)]
        simp [hsl]
      obtain ⟨e1, e2, e3⟩ := ih (nums.set slow (nums.getD fast 0)) (slow + 1) (fast + 1)
        (by omega) (by omega) (by simp; omega)
      rw [hget, hdr] at e1 e2
      refine ⟨?_, ?_, ?_⟩
      · rw [e1]; simp; omega
      · rw [e2, htk]; simp
      · rw [e3]; simp
    · simp only [hne, if_false]
      push_neg at hne
      obtain ⟨e1, e2, e3⟩ := ih nums slow (fast + 1) (by omega) (by omega) (by omega)
      simp only [Nat.add_sub_cancel] at e1 e2
      exact ⟨e1, e2, e3⟩

theorem keptAfter_sublist : ∀ (rest : List Int) (prev : Int),
    (keptAfter prev rest).Sublist rest := by
  intro rest
  induction rest with
  | nil => intro _; simp [keptAfter]
  | cons x t ih =>
    intro prev
    unfold keptAfter
    split
    · exact (ih x).cons₂ x
    · exact (ih x).cons x

theorem mem_keptAfter : ∀ (rest : List Int) (prev y : Int),
    y ∈ prev :: keptAfter prev rest ↔ y ∈ prev :: rest := by
  intro rest
  induction rest with
  | nil => intro _ _; simp [keptAfter]
  | cons x t ih =>
    intro prev y
    have hx := ih x y
    unfold keptAfter
    simp only [List.mem_cons] at hx ⊢
    by_cases hne : x ≠ prev
    · simp only [hne, if_true, ne_eq, not_false_eq_true, List.mem_cons]
      rw [hx]
    · push_neg at hne
      subst hne
      simp only [ne_eq, not_true_eq_false, if_false]
      rw [hx]; tauto

theorem keptAfter_increasing : ∀ (rest : List Int) (prev : Int),
    List.Pairwise (· ≤ ·) (prev :: rest) →
      List.Pairwise (· < ·) (prev :: keptAfter prev rest) := by
  intro rest
  induction rest with
  | nil => intro _ _; simp [keptAfter]
  | cons x t ih =>
    intro prev hs
    have hpx : prev ≤ x := (List.pairwise_cons.1 hs).1 x (by simp)
    have hxt : List.Pairwise (· ≤ ·) (x :: t) := (List.pairwise_cons.1 hs).2
    have hrec := ih x hxt
    unfold keptAfter
    by_cases hne : x ≠ prev
    · simp only [hne, if_true, ne_eq, not_false_eq_true]
      have hlt : prev < x := lt_of_le_of_ne hpx (Ne.symm hne)
      refine List.pairwise_cons.2 ⟨?_, hrec⟩
      intro y hy
      rcases List.mem_cons.1 hy with rfl | hy
      · exact hlt
      · exact lt_trans hlt ((List.pairwise_cons.1 hrec).1 y hy)
    · push_neg at hne
      subst hne
      simpa using hrec

theorem removeDuplicates_cons (a : Int) (t : List Int) :
    (removeDuplicates (a :: t)).2 = (a :: keptAfter a t).length ∧
      (removeDuplicates (a :: t)).1.take (removeDuplicates (a :: t)).2 = a :: keptAfter a t := by
  have h := removeDuplicatesLoop_spec t.length (a :: t) 1 1 le_rfl le_rfl (by simp; omega)
  have hr : removeDuplicates (a :: t) = removeDuplicatesLoop t.length (a :: t) 1 1 := by
    simp [removeDuplicates]
  rw [hr]
  obtain ⟨e1, e2, _⟩ := h
  simp only [Nat.sub_self, List.getD_cons_zero, List.drop_succ_cons, List.drop_zero,
    List.take_succ_cons, List.take_zero] at e1 e2
  refine ⟨?_, ?_⟩
  · rw [e1]; simp; omega
  · rw [e2]; simp

/-- C10: for a non-decreasing `nums`, `removeDuplicates` returns the number `k`
of distinct values of `nums`, and afterwards `nums[0..k)` is strictly
increasing, holds exactly the values of the original `nums`, in their original
order (it is a sublist of it, and equal to the list of distinct values); for
the empty slice it returns 0. -/
theorem removeDuplicates_correct (nums : List Int) (hs : List.Pairwise (· ≤ ·) nums) :
    (removeDuplicates nums).2 = nums.toFinset.card ∧
      List.Pairwise (· < ·) ((removeDuplicates nums).1.take (removeDuplicates nums).2) ∧
      (∀ x, x ∈ (removeDuplicates nums).1.take (removeDuplicates nums).2 ↔ x ∈ nums) ∧
      ((removeDuplicates nums).1.take (removeDuplicates nums).2).Sublist nums ∧
      (removeDuplicates nums).1.take (removeDuplicates nums).2 = nums.dedup ∧
      (removeDuplicates []).2 = 0 := by
  cases nums with
  | nil => simp [removeDuplicates]
  | cons a t =>
    obtain ⟨e1, e2⟩ := removeDuplicates_cons a t
    have hinc := keptAfter_increasing t a hs
    have hmem := mem_keptAfter t a
    have hnd : (a :: keptAfter a t).Nodup := hinc.imp (fun h => ne_of_lt h)
    have hfs : (a :: keptAfter a t).toFinset = (a :: t).toFinset := by
      ext y; simp only [List.mem_toFinset]; exact hmem y
    rw [e2, e1]
    refine ⟨?_, hinc, hmem, (keptAfter_sublist t a).cons₂ a, ?_, by simp [removeDuplicates]⟩
    · rw [← hfs, List.toFinset_card_of_nodup hnd]
    · apply List.eq_of_perm_of_sorted (r := (· ≤ ·))
      · rw [List.perm_ext_iff_of_nodup hnd (List.nodup_dedup _)]
        intro y; rw [List.mem_dedup]; exact hmem y
      · exact hinc.imp (fun h => le_of_lt h)
      · exact hs.sublist (List.dedup_sublist _)

theorem removeDuplicates_correct_witness :
    List.Pairwise (· ≤ ·) ([1, 1, 2, 3, 3] : List Int) ∧
      removeDuplicates [1, 1, 2, 3, 3] = ([1, 2, 3, 3, 3], 3) ∧
      (removeDuplicates [1, 1, 2, 3, 3]).2 = ([1, 1, 2, 3, 3] : List Int).toFinset.card :=
  ⟨by decide, by decide, (removeDuplicates_correct [1, 1, 2, 3, 3] (by decide)).1⟩

theorem bump_digit (d : Int) (h0 : 0 ≤ d) (h9 : d ≤ 9) :
    Int.tmod (Go.wrapInt (d + 1)) 10 = if d = 9 then 0 else d + 1 := by
  have hw : Go.wrapInt (d + 1) = d + 1 := by unfold Go.wrapInt; omega
  rw [hw, Int.tmod_eq_emod (by omega) (by omega)]
  split <;> omega

theorem plusOneLoop_append (suf : List Int) :
    ∀ (i : Nat) (pre : List Int), i ≤ pre.length →
      plusOneLoop (pre ++ suf) i = (plusOneLoop pre i).map (· ++ suf) := by
  intro i
  induction i with
  | zero => intro pre _; simp [plusOneLoop]
  | succ i ih =>
    intro pre hi
    have hlt : i < pre.length := hi
    have hget : (pre ++ suf).getD i 0 = pre.getD i 0 := by
      simp [List.getD_eq_getElem?_getD, List.getElem?_append_left hlt]
    have hset : ∀ d, (pre ++ suf).set i d = pre.set i d ++ suf := by
      intro d; rw [List.set_append_left _ _ hlt]
    simp only [plusOneLoop, hget, hset]
    split
    · simp
    · rw [ih _ (by simp; omega)]

theorem plusOneLoop_snoc (pre : List Int) (d : Int) :
    plusOneLoop (pre ++ [d]) (pre.length + 1) =
      if Int.tmod (Go.wrapInt (d + 1)) 10 ≠ 0 then
        some (pre ++ [Int.tmod (Go.wrapInt (d + 1)) 10])
      else (plusOneLoop pre pre.length).map (· ++ [Int.tmod (Go.wrapInt (d + 1)) 10]) := by
  have hget : (pre ++ [d]).getD pre.length 0 = d := by
    simp [List.getD_eq_getElem?_getD]
  have hset : ∀ e, (pre ++ [d]).set pre.length e = pre ++ [e] := by
    intro e; simp [List.set_append_right]
  simp only [plusOneLoop, hget, hset]
  split
  · rfl
  · rw [plusOneLoop_append _ _ _ le_rfl]

theorem value_snoc (pre : List Int) (d : Int) : value (pre ++ [d]) = value pre * 10 + d := by
  simp [value, List.foldl_append]

theorem foldl_zeros (n : Nat) (a : Int) :
    (List.replicate n (0 : Int)).foldl (fun acc d => acc * 10 + d) a = a * 10 ^ n := by
  induction n generalizing a with
  | zero => simp
  | succ n ih => simp [List.replicate_succ, ih, pow_succ]; ring

theorem value_carry (n : Nat) : value ((List.replicate (n + 1) 0).set 0 1) = 10 ^ n := by
  simp [value, List.replicate_succ, foldl_zeros]

/-- What the loop of `plusOne` computes on a digit list. -/
theorem plusOneLoop_spec (ds : List Int) (h : IsDigits ds) :
    match plusOneLoop ds ds.length with
    | some r => r.length = ds.length ∧ IsDigits r ∧ value r = value ds + 1 ∧ ¬ (∀ d ∈ ds, d = 9)
    | none => (∀ d ∈ ds, d = 9) ∧ value ds + 1 = 10 ^ ds.length := by
  induction ds using List.reverseRecOn with
  | nil => simp [plusOneLoop, value]
  | append_singleton pre d ih =>
    have hpre : IsDigits pre := fun x hx => h x (by simp [hx])
    have hd := h d (by simp)
    specialize ih hpre
    rw [List.length_append, List.length_singleton, plusOneLoop_snoc, bump_digit d hd.1 hd.2]
    by_cases h9 : d = 9
    · subst h9
      simp only [if_true, ne_eq, not_true_eq_false, if_false]
      cases hl : plusOneLoop pre pre.length with
      | none =>
        rw [hl] at ih
        simp only [Option.map_none']
        refine ⟨?_, ?_⟩
        · intro x hx
          rcases List.mem_append.1 hx with hx | hx
          · exact ih.1 x hx
          · simpa using hx
        · rw [value_snoc, pow_succ]; have := ih.2; omega
      | some r =>
        rw [hl] at ih
        simp only [Option.map_some']
        obtain ⟨h1, h2, h3, h4⟩ := ih
        refine ⟨by simp [h1], ?_, ?_, ?_⟩
        · intro x hx
          rcases List.mem_append.1 hx with hx | hx
          · exact h2 x hx
          · simp at hx; omega
        · rw [value_snoc, value_snoc, h3]; ring
        · intro hall; exact h4 (fun x hx => hall x (by simp [hx]))
    · have hne : d + 1 ≠ 0 := by omega
      simp only [h9, if_false, ne_eq, hne, not_false_eq_true, if_true]
      refine ⟨by simp, ?_, ?_, ?_⟩
      · intro x hx
        rcases List.mem_append.1 hx with hx | hx
        · exact hpre x hx
        · simp at hx; omega
      · rw [value_snoc, value_snoc]; ring
      · intro hall; exact h9 (hall d (by simp))

/-- C9: for a digit list `d` (most significant digit first, digits in `0..9`)
`plusOne d` is a list of digits in `0..9` of decimal value `value d + 1`; it has
length `len(d) + 1` exactly when every digit of `d` is 9 and length `len(d)`
otherwise. -/
theorem plusOne_correct (d : List Int) (hd : ∀ x ∈ d, 0 ≤ x ∧ x ≤ 9) :
    (∀ x ∈ plusOne d, 0 ≤ x ∧ x ≤ 9) ∧ value (plusOne d) = value d + 1 ∧
      ((plusOne d).length = d.length + 1 ↔ ∀ x ∈ d, x = 9) ∧
      ((plusOne d).length = d.length ↔ ¬ ∀ x ∈ d, x = 9) := by
  have hs := plusOneLoop_spec d hd
  unfold plusOne
  cases hl : plusOneLoop d d.length with
  | none =>
    rw [hl] at hs
    replace hs : (∀ x ∈ d, x = 9) ∧ value d + 1 = 10 ^ d.length := hs
    simp only
    refine ⟨?_, ?_, ?_, ?_⟩
    · intro x hx
      have := List.mem_or_eq_of_mem_set hx
      rcases this with h | h
      · rw [List.eq_of_mem_replicate h]; omega
      · omega
    · rw [value_carry]; exact hs.2.symm
    · simp only [List.length_set, List.length_replicate, true_iff]; exact hs.1
    · simp only [List.length_set, List.length_replicate]
      constructor
      · intro h; omega
      · intro h; exact absurd hs.1 h
  | some r =>
    rw [hl] at hs
    simp only
    obtain ⟨h1, h2, h3, h4⟩ := hs
    refine ⟨h2, h3, ?_, ?_⟩
    · rw [h1]; constructor
      · intro h; omega
      · intro h; exact absurd h h4
    · rw [h1]; simp [h4]

theorem plusOne_correct_witness :
    plusOne [1, 9, 9] = [2, 0, 0] ∧ value (plusOne [1, 9, 9]) = value [1, 9, 9] + 1 ∧
      plusOne [9, 9] = [1, 0, 0] :=
  ⟨by decide, (plusOne_correct [1, 9, 9] (by decide)).2.1, by decide⟩

theorem WellNested.wrap {o c : Char} {a : List Char} (h : Matches o c) (ha : WellNested a) :
    WellNested (o :: a ++ [c]) := by
  rcases h with ⟨rfl, rfl⟩ | ⟨rfl, rfl⟩ | ⟨rfl, rfl⟩
  · exact ha.paren
  · exact ha.bracket
  · exact ha.brace

theorem WellNested.pair {o c : Char} (h : Matches o c) : WellNested [o, c] := by
  simpa using WellNested.wrap h WellNested.empty

theorem matches_of_pairs {c top : Char} (hc : ¬ IsOpen c) (ht : IsOpen top)
    (hp : pairs c = top) : Matches top c := by
  unfold pairs at hp
  unfold IsOpen at ht
  unfold Matches
  split at hp
  · next h => subst h; subst hp; simp
  · split at hp
    · next h => subst h; subst hp; simp
    · split at hp
      · next h => subst h; subst hp; simp
      · subst hp; exact absurd ht (by decide)

theorem pairs_of_matches {o c : Char} (h : Matches o c) : pairs c = o ∧ ¬ IsOpen c ∧ IsOpen o := by
  rcases h with ⟨rfl, rfl⟩ | ⟨rfl, rfl⟩ | ⟨rfl, rfl⟩ <;> decide

/-- A matched pair inserted anywhere into a well nested string leaves it well
nested. -/
theorem WellNested.insert_pair {o c : Char} (h : Matches o c) {w : List Char}
    (hw : WellNested w) : ∀ a b, w = a ++ b → WellNested (a ++ o :: c :: b) := by
  have wrapCase : ∀ (o' c' : Char) (x : List Char), Matches o' c' → WellNested x →
      (∀ a b, x = a ++ b → WellNested (a ++ o :: c :: b)) →
      ∀ a b, o' :: x ++ [c'] = a ++ b → WellNested (a ++ o :: c :: b) := by
    intro o' c' x hm hx ih a b hab
    cases a with
    | nil =>
      simp only [List.nil_append] at hab ⊢
      rw [← hab]
      exact WellNested.concat (WellNested.pair h) (WellNested.wrap hm hx)
    | cons a0 a' =>
      simp only [List.cons_append, List.cons.injEq] at hab
      obtain ⟨rfl, hab⟩ := hab
      rcases List.append_eq_append_iff.1 hab with ⟨m, rfl, hm2⟩ | ⟨m, rfl, rfl⟩
      swap
      · have := WellNested.wrap hm (ih a' m rfl)
        simpa using this
      · cases m with
        | nil =>
          simp only [List.nil_append] at hm2
          subst hm2
          have := WellNested.wrap hm (ih x [] (by simp))
          simpa using this
        | cons m0 m' =>
          simp only [List.cons_append, List.cons.injEq] at hm2
          obtain ⟨rfl, hm2⟩ := hm2
          obtain ⟨rfl, rfl⟩ := List.append_eq_nil.1 hm2.symm
          have := WellNested.concat (WellNested.wrap hm hx) (WellNested.pair h)
          simpa using this
  induction hw with
  | empty =>
    intro a b hab
    obtain ⟨rfl, rfl⟩ := List.append_eq_nil.1 hab.symm
    exact WellNested.pair h
  | @concat x y hx hy ihx ihy =>
    intro a b hab
    rcases List.append_eq_append_iff.1 hab with ⟨m, rfl, rfl⟩ | ⟨m, rfl, rfl⟩
    · have := WellNested.concat hx (ihy m b rfl)
      simpa using this
    · have := WellNested.concat (ihx a m rfl) hy
      simpa using this
  | @paren x hx ih => exact wrapCase '(' ')' x (by simp [Matches]) hx ih
  | @bracket x hx ih => exact wrapCase '[' ']' x (by simp [Matches]) hx ih
  | @brace x hx ih => exact wrapCase '{' '}' x (by simp [Matches]) hx ih

theorem isValidLoop_open {c : Char} (h : IsOpen c) (stack rest : List Char) :
    isValidLoop stack (c :: rest) = isValidLoop (c :: stack) rest := by
  unfold IsOpen at h
  rw [isValidLoop.eq_def]
  simp only [if_pos h]

theorem isValidLoop_close {o c : Char} (h : Matches o c) (stack rest : List Char) :
    isValidLoop (o :: stack) (c :: rest) = isValidLoop stack rest := by
  obtain ⟨hp, hc, _⟩ := pairs_of_matches h
  unfold IsOpen at hc
  rw [isValidLoop.eq_def]
  simp only [if_neg hc, hp, ne_eq, not_true_eq_false, if_false]

/-- A well nested block is consumed by the loop and leaves the stack as it was. -/
theorem isValidLoop_skip {a : List Char} (ha : WellNested a) :
    ∀ stack rest, isValidLoop stack (a ++ rest) = isValidLoop stack rest := by
  have wrapCase : ∀ (o c : Char) (x : List Char), Matches o c →
      (∀ stack rest, isValidLoop stack (x ++ rest) = isValidLoop stack rest) →
      ∀ stack rest, isValidLoop stack ((o :: x ++ [c]) ++ rest) = isValidLoop stack rest := by
    intro o c x hm ih stack rest
    have e : (o :: x ++ [c]) ++ rest = o :: (x ++ c :: rest) := by simp
    rw [e, isValidLoop_open (pairs_of_matches hm).2.2, ih, isValidLoop_close hm]
  induction ha with
  | empty => intro stack rest; rfl
  | concat _ _ ihx ihy => intro stack rest; rw [List.append_assoc, ihx, ihy]
  | paren _ ih => exact wrapCase '(' ')' _ (by decide) ih
  | bracket _ ih => exact wrapCase '[' ']' _ (by decide) ih
  | brace _ ih => exact wrapCase '{' '}' _ (by decide) ih

/-- When the loop accepts, the opening brackets on the stack (bottom first)
followed by the remaining input form a well nested string. -/
theorem wellNested_of_isValidLoop :
    ∀ (rest stack : List Char), (∀ c ∈ stack, IsOpen c) → isValidLoop stack rest = true →
      WellNested (stack.reverse ++ rest) := by
  intro rest
  induction rest with
  | nil =>
    intro stack _ h
    cases stack with
    | nil => exact WellNested.empty
    | cons _ _ => simp [isValidLoop] at h
  | cons c rest ih =>
    intro stack hst h
    by_cases hc : IsOpen c
    · rw [isValidLoop_open hc] at h
      have := ih (c :: stack) (by
        intro d hd
        rcases List.mem_cons.1 hd with rfl | hd
        · exact hc
        · exact hst d hd) h
      simpa using this
    · have hc' := hc
      unfold IsOpen at hc'
      rw [isValidLoop.eq_def] at h
      simp only [if_neg hc'] at h
      cases stack with
      | nil => simp at h
      | cons top stack' =>
        simp only at h
        by_cases hp : pairs c = top
        · simp only [hp, ne_eq, not_true_eq_false, if_false] at h
          have hm := matches_of_pairs hc (hst top (by simp)) hp
          have hw := ih stack' (fun d hd => hst d (by simp [hd])) h
          have := WellNested.insert_pair hm hw stack'.reverse rest rfl
          simpa using this
        · simp [hp] at h

/-- C8: `isValid s` is true exactly when `s` is generated by
`S -> empty | S S | (S) | [S] | {S}`; this holds for every string, so also for
those made of the six bracket characters only, and the empty string is
valid. -/
theorem isValid_iff_wellNested (s : String) : isValid s = true ↔ WellNested s.toList := by
  unfold isValid
  constructor
  · intro h
    simpa using wellNested_of_isValidLoop s.toList [] (by simp) h
  · intro h
    have := isValidLoop_skip h [] []
    rw [List.append_nil] at this
    rw [this]; rfl

theorem isValid_examples :
    isValid "" = true ∧ isValid "([]{})" = true ∧ isValid "(]" = false ∧ isValid "((" = false := by
  decide

end TaskOne

namespace TaskTwo

theorem Counter.getValue_eq (c : Counter) (h : c.m = false) :
    c.GetValue = some (c, c.count) := by
  cases c with
  | mk m count =>
    simp only at h
    subst h
    rfl

theorem Counter.increment_eq (c : Counter) (h : c.m = false) :
    c.Increment = some { m := false, count := Go.wrapInt (c.count + 1) } := by
  cases c with
  | mk m count =>
    simp only at h
    subst h
    rfl

theorem Counter.run_calls : ∀ (calls : List CounterCall) (c : Counter) (tr : List Int),
    c.m = false → 0 ≤ c.count →
    c.count + (calls.count .increment : Nat) < 9223372036854775808 →
    ∃ c' tr', Go.runSchedule Counter.call (c, tr) calls = some (c', tr') ∧ c'.m = false ∧
      c'.count = c.count + (calls.count .increment : Nat) := by
  intro calls
  induction calls with
  | nil => intro c tr hm _ _; exact ⟨c, tr, rfl, hm, by simp⟩
  | cons a rest ih =>
    intro c tr hm h0 hb
    cases a with
    | increment =>
      simp only [List.count_cons_self, Nat.cast_add, Nat.cast_one] at hb ⊢
      have hw : Go.wrapInt (c.count + 1) = c.count + 1 := Go.wrapInt_small _ (by omega) (by omega)
      obtain ⟨c', tr', hr, hm', hc'⟩ := ih { m := false, count := c.count + 1 } tr rfl
        (by simp only; omega) (by simp only; omega)
      refine ⟨c', tr', ?_, hm', ?_⟩
      · simp only [Go.runSchedule, Counter.call, Counter.increment_eq c hm, Option.map_some', hw]
        exact hr
      · rw [hc']; simp only; omega
    | getValue =>
      have hcnt : (CounterCall.getValue :: rest).count .increment = rest.count .increment := by
        rw [List.count_cons_of_ne (by decide)]
      rw [hcnt] at hb ⊢
      obtain ⟨c', tr', hr, hm', hc'⟩ := ih c (tr ++ [c.count]) hm h0 hb
      refine ⟨c', tr', ?_, hm', hc'⟩
      simp only [Go.runSchedule, Counter.call, Counter.getValue_eq c hm, Option.map_some']
      exact hr

theorem Counter.run_gets : ∀ (gets : List CounterCall) (c : Counter) (tr : List Int),
    c.m = false → (∀ g ∈ gets, g = .getValue) →
    Go.runSchedule Counter.call (c, tr) gets = some (c, tr ++ List.replicate gets.length c.count) := by
  intro gets
  induction gets with
  | nil => intro c tr _ _; simp [Go.runSchedule]
  | cons g rest ih =>
    intro c tr hm hg
    have := hg g (by simp)
    subst this
    simp only [Go.runSchedule, Counter.call, Counter.getValue_eq c hm, Option.map_some']
    rw [ih c _ hm (fun g hg' => hg g (by simp [hg']))]
    simp [List.replicate_succ]

/-- C4: starting from `count = 0`, every interleaving `calls` of `Increment`
and `GetValue` calls that holds `m` increments (`m` a Go `int`) runs through
without blocking and leaves a counter on which `GetValue` returns `m`, also
for any number of further `GetValue` calls; and `GetValue` never changes
`count`. -/
theorem counter_value_after_increments (calls gets : List CounterCall) (m : Nat)
    (hm : calls.count .increment = m) (hint : (m : Int) < 9223372036854775808)
    (hgets : ∀ g ∈ gets, g = .getValue) :
    ∃ c tr, Go.runSchedule Counter.call (Counter.zero, []) calls = some (c, tr) ∧
      c.GetValue = some (c, (m : Int)) ∧
      Go.runSchedule Counter.call (c, tr) gets = some (c, tr ++ List.replicate gets.length (m : Int)) ∧
      ∀ (c0 c1 : Counter) (v : Int), c0.GetValue = some (c1, v) →
        c1.count = c0.count ∧ v = c0.count := by
  obtain ⟨c, tr, hr, hcm, hcc⟩ := Counter.run_calls calls Counter.zero [] rfl (by decide)
    (by rw [hm]; simpa [Counter.zero] using hint)
  have hc : c.count = (m : Int) := by rw [hcc, hm]; simp [Counter.zero]
  refine ⟨c, tr, hr, ?_, ?_, ?_⟩
  · rw [Counter.getValue_eq c hcm, hc]
  · rw [Counter.run_gets gets c tr hcm hgets, hc]
  · intro c0 c1 v h
    cases c0 with
    | mk m0 count0 =>
      cases m0 with
      | true => cases h
      | false =>
        simp only [Counter.GetValue, Counter.Lock, Counter.Unlock] at h
        cases h
        exact ⟨rfl, rfl⟩

theorem counter_value_after_increments_witness :
    ∃ c tr, Go.runSchedule Counter.call (Counter.zero, [])
        [.increment, .getValue, .increment, .increment] = some (c, tr) ∧
      c.GetValue = some (c, ((3 : Nat) : Int)) :=
  let ⟨c, tr, h1, h2, _⟩ := counter_value_after_increments
    [.increment, .getValue, .increment, .increment] [.getValue, .getValue] 3
    (by decide) (by decide) (by decide)
  ⟨c, tr, h1, h2⟩

/-- C5: `method9` has schedules that print a value other than 10000: when
main's sleep ends before any goroutine has run it prints 0, and after three
increments it prints 3.  Nothing orders the read after the loops. -/
theorem method9_print_before_increments :
    (Go.runSchedule Method9.step Method9.init (List.replicate 10 .spawn ++ [.print])).map
        (fun s => s.printed) = some (some 0) ∧
      (Go.runSchedule Method9.step Method9.init
          (List.replicate 10 .spawn ++ [.inc 0, .inc 7, .inc 0, .print])).map
        (fun s => s.printed) = some (some 3) := by
  decide

theorem method10_inv_init : Method10.Inv Method10.init := by
  constructor <;> simp [Method10.init]

theorem method10_inv_step (s : Method10) (a : Act10) (t : Method10) (hs : Method10.Inv s)
    (h : Method10.step s a = some t) : Method10.Inv t := by
  obtain ⟨hlen, hbound, hrange, hsum, hlive, hloaded⟩ := hs
  cases a with
  | spawn =>
    simp only [Method10.step] at h
    split at h
    · next hg =>
      simp only [Option.some.injEq] at h
      subst h
      constructor
      · simp; omega
      · simp; omega
      · intro w hw
        simp only [List.mem_append, List.mem_singleton] at hw
        rcases hw with hw | rfl
        · exact hrange w hw
        · simp
      · simp [hsum]
      · simp [hlive]
      · intro v hv
        have := (hloaded v hv).2.1
        omega
    · cases h
  | add k =>
    simp only [Method10.step] at h
    split at h
    · cases h
    · next w hw =>
      split at h
      · next hj =>
        simp only [Option.some.injEq] at h
        subst h
        have hr : ∀ w' ∈ s.adders.set k { w with j := w.j + 1 },
            w'.j ≤ 1000 ∧ (w'.exited = true → w'.j = 1000) := by
          intro w' hw'
          rcases List.mem_or_eq_of_mem_set hw' with hm | rfl
          · exact hrange w' hm
          · have := hrange w (List.getElem?_mem hw)
            constructor
            · simp; omega
            · intro he; simp at he; have := this.2 he; omega
        have hsm := Go.sum_map_set (fun w => w.j) { w with j := w.j + 1 } s.adders k w hw
        have hlv := Go.sum_map_set (fun w => if w.exited then 0 else 1) { w with j := w.j + 1 }
          s.adders k w hw
        have hle := Go.sum_map_le (fun w => w.j) 1000 _ (fun w' hw' => (hr w' hw').1)
        simp only [List.length_set] at hle
        simp only at hsm hlv
        constructor
        · simpa using hlen
        · exact hbound
        · exact hr
        · dsimp only
          rw [Go.wrapInt32_small _ (by omega) (by omega)]
          omega
        · dsimp only
          omega
        · intro v hv
          have := ((hloaded v hv).2.2 w (List.getElem?_mem hw)).1
          omega
      · cases h
  | done k =>
    simp only [Method10.step] at h
    split at h
    · cases h
    · next w hw =>
      split at h
      · next hj =>
        simp only [Option.some.injEq] at h
        subst h
        have hw1 := hrange w (List.getElem?_mem hw)
        have hsm := Go.sum_map_set (fun w => w.j) { w with exited := true } s.adders k w hw
        have hlv := Go.sum_map_set (fun w => if w.exited then 0 else 1) { w with exited := true }
          s.adders k w hw
        simp only [hj.2, Bool.false_eq_true, if_false, if_true] at hsm hlv
        constructor
        · simpa using hlen
        · exact hbound
        · intro w' hw'
          rcases List.mem_or_eq_of_mem_set hw' with hm | rfl
          · exact hrange w' hm
          · simp; omega
        · dsimp only
          omega
        · dsimp only
          omega
        · intro v hv
          have := ((hloaded v hv).2.2 w (List.getElem?_mem hw)).2
          rw [hj.2] at this
          cases this
      · cases h
  | waitLoad =>
    simp only [Method10.step] at h
    split at h
    · next hg =>
      simp only [Option.some.injEq] at h
      subst h
      obtain ⟨hi, hwg, hfin⟩ := hg
      refine ⟨hlen, hbound, hrange, hsum, hlive, ?_⟩
      intro v hv
      simp only [Option.some.injEq] at hv
      subst hv
      have hz : (s.adders.map (fun w => if w.exited then 0 else 1)).sum = 0 := by
        rw [hlive] at hwg; exact_mod_cast hwg
      have hall := Go.sum_map_eq_zero _ _ hz
      have hex : ∀ w ∈ s.adders, w.exited = true := by
        intro w hw
        have h1 := hall w hw
        by_cases he : w.exited = true
        · exact he
        · simp [he] at h1
      have hj : ∀ w ∈ s.adders, (fun w : Adder => w.j) w = 1000 :=
        fun w hw => (hrange w hw).2 (hex w hw)
      have := Go.sum_map_eq _ 1000 _ hj
      have hi10 : s.i = 10 := by omega
      refine ⟨?_, hi10, fun w hw => ⟨hj w hw, hex w hw⟩⟩
      rw [hsum, this, hlen, hi10]; rfl
    · cases h

theorem method10_fuel_step (s : Method10) (a : Act10) (t : Method10) (hs : Method10.Inv s)
    (h : Method10.step s a = some t) : t.fuel + 1 ≤ s.fuel := by
  obtain ⟨hlen, hbound, hrange, hsum, hlive, hloaded⟩ := hs
  unfold Method10.fuel
  cases a with
  | spawn =>
    simp only [Method10.step] at h
    split at h
    · next hg =>
      simp only [Option.some.injEq] at h
      subst h
      simp only [List.map_append, List.sum_append, List.map_cons, List.map_nil, List.sum_cons,
        List.sum_nil, Bool.false_eq_true, if_false]
      have : (10 - s.i) * 1002 = (10 - (s.i + 1)) * 1002 + 1002 := by omega
      omega
    · cases h
  | add k =>
    simp only [Method10.step] at h
    split at h
    · cases h
    · next w hw =>
      split at h
      · next hj =>
        simp only [Option.some.injEq] at h
        subst h
        have hf := Go.sum_map_set (fun w => (1000 - w.j) + (if w.exited then 0 else 1))
          { w with j := w.j + 1 } s.adders k w hw
        dsimp only at hf ⊢
        omega
      · cases h
  | done k =>
    simp only [Method10.step] at h
    split at h
    · cases h
    · next w hw =>
      split at h
      · next hj =>
        simp only [Option.some.injEq] at h
        subst h
        have hf := Go.sum_map_set (fun w => (1000 - w.j) + (if w.exited then 0 else 1))
          { w with exited := true } s.adders k w hw
        simp only [hj.2, Bool.false_eq_true, if_false, if_true] at hf
        dsimp only at hf ⊢
        omega
      · cases h
  | waitLoad =>
    simp only [Method10.step] at h
    split at h
    · next hg =>
      simp only [Option.some.injEq] at h
      subst h
      simp [hg.2.2]
    · cases h

theorem method10_progress (s : Method10) (hs : Method10.Inv s) (hf : ¬ s.final ≠ none) :
    ∃ a t, Method10.step s a = some t := by
  obtain ⟨hlen, hbound, hrange, hsum, hlive, hloaded⟩ := hs
  have hfin : s.final = none := by simpa using hf
  by_cases hi : s.i < 10
  · exact ⟨.spawn, _, by simp only [Method10.step, if_pos hi]; rfl⟩
  by_cases hj : ∃ w ∈ s.adders, w.j < 1000
  · obtain ⟨w, hw, hlt⟩ := hj
    obtain ⟨k, hk⟩ := Go.exists_index_of_mem hw
    exact ⟨.add k, _, by simp only [Method10.step, hk, if_pos hlt]; rfl⟩
  by_cases he : ∃ w ∈ s.adders, w.exited = false
  · obtain ⟨w, hw, hex⟩ := he
    obtain ⟨k, hk⟩ := Go.exists_index_of_mem hw
    have hge : ¬ w.j < 1000 := fun h => hj ⟨w, hw, h⟩
    exact ⟨.done k, _, by simp only [Method10.step, hk, hge, hex, not_false_eq_true, and_self, if_true]; rfl⟩
  · have hz : (s.adders.map (fun w => if w.exited then 0 else 1)).sum = 0 := by
      have := Go.sum_map_eq (fun w : Adder => if w.exited then 0 else 1) 0 s.adders (by
        intro w hw
        by_cases hx : w.exited = true
        · simp [hx]
        · exact absurd ⟨w, hw, by simpa using hx⟩ he)
      simpa using this
    have hwg : s.wg = 0 := by rw [hlive, hz]; rfl
    exact ⟨.waitLoad, _, by simp only [Method10.step, hi, hwg, hfin, not_false_eq_true, and_self, if_true]; rfl⟩

/-- C6: in `method10`, for every interleaving of main and the goroutines, the
value that `atomic.LoadInt32` returns is 10000, and when it is read all 10
goroutines have finished their 1000 adds and run `wg.Done()`; an interleaving
is at most 10021 actions long and can always be run on to the load. -/
theorem method10_final_is_10000 (sched : List Act10) (s : Method10)
    (h : Go.runSchedule Method10.step Method10.init sched = some s) :
    (∀ v, s.final = some v →
        v = 10000 ∧ s.adders.length = 10 ∧ ∀ w ∈ s.adders, w.j = 1000 ∧ w.exited = true) ∧
      sched.length ≤ 10021 ∧
      ∃ rest t, Go.runSchedule Method10.step s rest = some t ∧ t.final = some 10000 := by
  have hinv := Go.runSchedule_invariant Method10.step Method10.Inv method10_inv_step sched _ _
    method10_inv_init h
  refine ⟨?_, ?_, ?_⟩
  · intro v hv
    obtain ⟨h1, h2, h3⟩ := hinv.loaded v hv
    exact ⟨h1, by rw [hinv.len, h2], h3⟩
  · have := Go.runSchedule_length Method10.step Method10.Inv Method10.fuel method10_inv_step
      method10_fuel_step sched _ _ method10_inv_init h
    have h0 : Method10.init.fuel = 10021 := by decide
    omega
  · obtain ⟨rest, t, hr, ht⟩ := Go.runSchedule_complete Method10.step Method10.Inv
      (fun s => s.final ≠ none) Method10.fuel method10_inv_step method10_fuel_step
      method10_progress s.fuel s le_rfl hinv
    refine ⟨rest, t, hr, ?_⟩
    have hti := Go.runSchedule_invariant Method10.step Method10.Inv method10_inv_step rest _ _ hinv hr
    cases hv : t.final with
    | none => exact absurd hv ht
    | some v => rw [(hti.loaded v hv).1]

theorem method10_final_is_10000_witness :
    ∃ rest t, Go.runSchedule Method10.step Method10.init ([.spawn, .add 0] ++ rest) = some t ∧
      t.final = some 10000 := by
  obtain ⟨rest, t, hr, ht⟩ :=
    (method10_final_is_10000 [.spawn, .add 0] _ (by decide : _ = some
      { counter := 1, wg := 1, i := 1, adders := [{ j := 1, exited := false }], final := none })).2.2
  exact ⟨rest, t, by rw [Go.runSchedule_append]; exact hr, ht⟩

theorem upTo_succ (n : Nat) : upTo (n + 1) = upTo n ++ [((n + 1 : Nat) : Int)] := by
  unfold upTo
  rw [List.range'_concat]
  simp [Nat.add_comm]

theorem upTo_length (n : Nat) : (upTo n).length = n := by
  unfold upTo
  rw [List.length_map, List.length_range']

theorem method8_inv_init : Method8.Inv Method8.init := by
  constructor <;> simp [Method8.init, Producer8.sent, upTo]

theorem method8_inv_step (s : Method8) (a : Act8) (t : Method8) (hs : Method8.Inv s)
    (h : Method8.step s a = some t) : Method8.Inv t := by
  obtain ⟨hnp, hml, hps, hcs, hsr, hfifo, hroom, hcl, hrun, hdr, hwg, hret⟩ := hs
  cases a with
  | startProducer =>
    simp only [Method8.step] at h
    split at h
    · next hg =>
      cases h
      have hp : s.prod = .notStarted := hps.2 hg.1
      have hc : s.cons = .notStarted := hcs.2 (by omega)
      rw [hp] at hfifo hcl
      constructor <;> dsimp only
      · exact hnp
      · omega
      · simp
      · simp [hc]
      · intro i hi; cases hi; omega
      · simpa [Producer8.sent] using hfifo
      · exact hroom
      · simpa using hcl
      · exact hrun
      · exact hdr
      · rw [hwg, hp, hc]; simp
      · intro h3; cases h3
    · cases h
  | startConsumer =>
    simp only [Method8.step] at h
    split at h
    · next hg =>
      cases h
      have hc : s.cons = .notStarted := hcs.2 (by omega)
      have hp : s.prod ≠ .notStarted := fun hp => by have := hps.1 hp; omega
      constructor <;> dsimp only
      · exact hnp
      · omega
      · simp [hp]
      · simp
      · exact hsr
      · exact hfifo
      · exact hroom
      · exact hcl
      · intro _; exact hrun (Or.inl hc)
      · intro hx; rcases hx with hx | hx <;> cases hx
      · rw [hwg, hc]; simp
      · intro h3; cases h3
    · cases h
  | send =>
    simp only [Method8.step] at h
    split at h
    · next i hp =>
      rw [if_neg (by simp [hnp])] at h
      have hopen : ¬ s.closed = true := fun hc => by
        rcases hcl.1 hc with h1 | h1 <;> rw [hp] at h1 <;> cases h1
      rw [if_neg hopen] at h
      split at h
      · next hlen =>
        cases h
        obtain ⟨hi1, hi100⟩ := hsr i hp
        have hm : s.main ≠ 0 := fun h0 => by have := hps.2 h0; rw [hp] at this; cases this
        have hcons : ¬ (s.cons = .done ∨ s.cons = .exited) := fun hx => hopen (hdr hx).2.2
        have hsent : (if i + 1 ≤ 100 then Producer8.send (i + 1) else Producer8.close).sent = i := by
          split <;> simp [Producer8.sent]; omega
        have hne : ∀ q, (if i + 1 ≤ 100 then Producer8.send (i + 1) else Producer8.close) = q →
            q ≠ .notStarted ∧ q ≠ .done ∧ q ≠ .exited := by
          intro q hq; subst hq; split <;> simp
        rw [hp] at hfifo hwg
        simp only [Producer8.sent] at hfifo
        constructor <;> dsimp only
        · exact hnp
        · exact hml
        · constructor
          · intro hx; exact absurd hx (hne _ rfl).1
          · intro hx; exact absurd hx hm
        · exact hcs
        · intro k hk
          split at hk
          · cases hk; omega
          · cases hk
        · rw [hsent, ← List.append_assoc, hfifo]
          have := upTo_succ (i - 1)
          rw [show i - 1 + 1 = i by omega] at this
          exact this.symm
        · simp; omega
        · constructor
          · intro hx; exact absurd hx hopen
          · intro hx
            rcases hx with hx | hx
            · exact absurd hx (hne _ rfl).2.1
            · exact absurd hx (hne _ rfl).2.2
        · exact hrun
        · intro hx; exact absurd hx hcons
        · rw [hwg]
          have h1 := (hne _ rfl).1
          have h2 := (hne _ rfl).2.2
          rw [if_neg (not_or.2 ⟨h1, h2⟩)]
          simp
        · intro h3
          have := (hret h3).1
          rw [hp] at this; cases this
      · cases h
    all_goals cases h
  | close =>
    simp only [Method8.step] at h
    split at h
    · next hp =>
      rw [if_neg (by simp [hnp])] at h
      have hopen : ¬ s.closed = true := fun hc => by
        rcases hcl.1 hc with h1 | h1 <;> rw [hp] at h1 <;> cases h1
      rw [if_neg hopen] at h
      cases h
      have hm : s.main ≠ 0 := fun h0 => by have := hps.2 h0; rw [hp] at this; cases this
      have hcons : ¬ (s.cons = .done ∨ s.cons = .exited) := fun hx => hopen (hdr hx).2.2
      rw [hp] at hfifo hwg
      constructor <;> dsimp only
      · exact hnp
      · exact hml
      · simp [hm]
      · exact hcs
      · intro k hk; cases hk
      · simpa [Producer8.sent] using hfifo
      · exact hroom
      · simp
      · exact hrun
      · intro hx; exact absurd hx hcons
      · rw [hwg]; simp
      · intro h3
        have := (hret h3).1
        rw [hp] at this; cases this
    all_goals cases h
  | producerDone =>
    simp only [Method8.step] at h
    split at h
    · next hp =>
      rw [if_neg (by simp [hnp])] at h
      cases h
      have hm : s.main ≠ 0 := fun h0 => by have := hps.2 h0; rw [hp] at this; cases this
      have hc : s.closed = true := hcl.2 (Or.inl hp)
      rw [hp] at hfifo hwg
      constructor <;> dsimp only
      · exact hnp
      · exact hml
      · simp [hm]
      · exact hcs
      · intro k hk; cases hk
      · simpa [Producer8.sent] using hfifo
      · exact hroom
      · simp [hc]
      · exact hrun
      · exact hdr
      · rw [hwg]; simp
      · intro h3
        have := (hret h3).1
        rw [hp] at this; cases this
    all_goals cases h
  | recv =>
    simp only [Method8.step] at h
    split at h
    · next hc =>
      rw [if_neg (by simp [hnp])] at h
      have hm : ¬ s.main ≤ 1 := fun h0 => by have := hcs.2 h0; rw [hc] at this; cases this
      split at h
      · next v rest hch =>
        cases h
        rw [hch] at hfifo hroom
        constructor <;> dsimp only
        · exact hnp
        · exact hml
        · exact hps
        · exact hcs
        · exact hsr
        · rw [← hfifo]; simp
        · simp at hroom; omega
        · exact hcl
        · exact hrun
        · intro hx; rw [hc] at hx; rcases hx with hx | hx <;> cases hx
        · exact hwg
        · exact hret
      · next hch =>
        split at h
        · next hclosed =>
          cases h
          have h0 := hrun (Or.inr hc)
          rw [hc] at hwg
          constructor <;> dsimp only
          · exact hnp
          · exact hml
          · exact hps
          · simp [hm]
          · exact hsr
          · exact hfifo
          · exact hroom
          · exact hcl
          · intro hx; rcases hx with hx | hx <;> cases hx
          · intro _; exact ⟨by omega, hch, hclosed⟩
          · rw [hwg]; simp
          · intro h3
            have := (hret h3).2
            rw [hc] at this; cases this
        · cases h
    all_goals cases h
  | consumerDone =>
    simp only [Method8.step] at h
    split at h
    · next hc =>
      rw [if_neg (by simp [hnp])] at h
      cases h
      have hm : ¬ s.main ≤ 1 := fun h0 => by have := hcs.2 h0; rw [hc] at this; cases this
      have hd := hdr (Or.inl hc)
      rw [hc] at hwg
      constructor <;> dsimp only
      · exact hnp
      · exact hml
      · exact hps
      · simp [hm]
      · exact hsr
      · exact hfifo
      · exact hroom
      · exact hcl
      · intro hx; rcases hx with hx | hx <;> cases hx
      · intro _; exact hd
      · rw [hwg]; simp
      · intro h3
        have := (hret h3).2
        rw [hc] at this; cases this
    all_goals cases h
  | wait =>
    simp only [Method8.step] at h
    split at h
    · next hg =>
      cases h
      obtain ⟨hm2, hw0, _⟩ := hg
      have hp1 : s.prod ≠ .notStarted := fun hx => by have := hps.1 hx; omega
      have hc1 : s.cons ≠ .notStarted := fun hx => by have := hcs.1 hx; omega
      rw [hw0] at hwg
      have hpe : s.prod = .exited := by
        by_contra hx
        simp [hp1, hx] at hwg
        split at hwg <;> omega
      have hce : s.cons = .exited := by
        by_contra hx
        simp [hc1, hx, hpe] at hwg
      constructor <;> dsimp only
      · exact hnp
      · omega
      · simp [hp1]
      · simp [hc1]
      · exact hsr
      · exact hfifo
      · exact hroom
      · exact hcl
      · exact hrun
      · exact hdr
      · rw [hw0]; exact hwg
      · intro _; exact ⟨hpe, hce⟩
    · cases h

theorem method8_sent_le (s : Method8) (hs : Method8.Inv s) : s.prod.sent ≤ 100 := by
  cases hp : s.prod with
  | send i => have := hs.sendRange i hp; simp only [Producer8.sent]; omega
  | _ => simp [Producer8.sent]

theorem method8_fuel_step (s : Method8) (a : Act8) (t : Method8) (hs : Method8.Inv s)
    (h : Method8.step s a = some t) : t.fuel + 1 ≤ s.fuel := by
  have hsent := method8_sent_le s hs
  obtain ⟨hnp, hml, hps, hcs, hsr, hfifo, hroom, hcl, hrun, hdr, hwg, hret⟩ := hs
  have hlen : s.received.length + s.ch.length = s.prod.sent := by
    have := congrArg List.length hfifo
    rwa [List.length_append, upTo_length] at this
  unfold Method8.fuel
  cases a with
  | startProducer =>
    simp only [Method8.step] at h
    split at h
    · next hg =>
      cases h
      have hp : s.prod = .notStarted := hps.2 hg.1
      simp only [hp, hg.1, Producer8.fuel]; omega
    · cases h
  | startConsumer =>
    simp only [Method8.step] at h
    split at h
    · next hg =>
      cases h
      have hc : s.cons = .notStarted := hcs.2 (by omega)
      simp only [hc, hg.1, Consumer8.fuel]; omega
    · cases h
  | send =>
    simp only [Method8.step] at h
    split at h
    · next i hp =>
      rw [if_neg (by simp [hnp])] at h
      have hopen : ¬ s.closed = true := fun hc => by
        rcases hcl.1 hc with h1 | h1 <;> rw [hp] at h1 <;> cases h1
      rw [if_neg hopen] at h
      split at h
      · cases h
        obtain ⟨hi1, hi100⟩ := hsr i hp
        by_cases hx : i + 1 ≤ 100
        · simp only [hp, if_pos hx, Producer8.fuel]; omega
        · simp only [hp, if_neg hx, Producer8.fuel]; omega
      · cases h
    all_goals cases h
  | close =>
    simp only [Method8.step] at h
    split at h
    · next hp =>
      rw [if_neg (by simp [hnp])] at h
      have hopen : ¬ s.closed = true := fun hc => by
        rcases hcl.1 hc with h1 | h1 <;> rw [hp] at h1 <;> cases h1
      rw [if_neg hopen] at h
      cases h
      simp only [hp, Producer8.fuel]; omega
    all_goals cases h
  | producerDone =>
    simp only [Method8.step] at h
    split at h
    · next hp =>
      rw [if_neg (by simp [hnp])] at h
      cases h
      simp only [hp, Producer8.fuel]; omega
    all_goals cases h
  | recv =>
    simp only [Method8.step] at h
    split at h
    · next hc =>
      rw [if_neg (by simp [hnp])] at h
      split at h
      · next v rest hch =>
        cases h
        rw [hch] at hlen
        simp only [List.length_cons] at hlen
        simp only [List.length_append, List.length_singleton]; omega
      · split at h
        · cases h
          simp only [hc, Consumer8.fuel]; omega
        · cases h
    all_goals cases h
  | consumerDone =>
    simp only [Method8.step] at h
    split at h
    · next hc =>
      rw [if_neg (by simp [hnp])] at h
      cases h
      simp only [hc, Consumer8.fuel]; omega
    all_goals cases h
  | wait =>
    simp only [Method8.step] at h
    split at h
    · next hg =>
      cases h
      simp only [hg.1]; omega
    · cases h

theorem method8_progress (s : Method8) (hs : Method8.Inv s) (hf : ¬ s.main = 3) :
    ∃ a t, Method8.step s a = some t := by
  obtain ⟨hnp, hml, hps, hcs, hsr, hfifo, hroom, hcl, hrun, hdr, hwg, hret⟩ := hs
  have hnp' : ¬ s.panicked = true := by simp [hnp]
  by_cases h0 : s.main = 0
  · exact ⟨.startProducer, _, by simp only [Method8.step, h0, hnp, and_self, if_true]; rfl⟩
  by_cases h1 : s.main = 1
  · exact ⟨.startConsumer, _, by simp only [Method8.step, h1, hnp, and_self, if_true]; rfl⟩
  have h2 : s.main = 2 := by omega
  have hp0 : s.prod ≠ .notStarted := fun hx => h0 (hps.1 hx)
  have hc0 : s.cons ≠ .notStarted := fun hx => by have := hcs.1 hx; omega
  -- the consumer can take a step whenever it is in its loop and the buffer holds a value
  have recvItem : s.cons = .recv → s.ch ≠ [] → ∃ a t, Method8.step s a = some t := by
    intro hc hne
    cases hch : s.ch with
    | nil => exact absurd hch hne
    | cons v rest =>
      exact ⟨.recv, _, by simp only [Method8.step, hc, if_neg hnp', hch]; rfl⟩
  cases hp : s.prod with
  | notStarted => exact absurd hp hp0
  | send i =>
    have hopen : ¬ s.closed = true := fun hc => by
      rcases hcl.1 hc with h1 | h1 <;> rw [hp] at h1 <;> cases h1
    by_cases hlen : s.ch.length < 10
    · exact ⟨.send, _, by simp only [Method8.step, hp, if_neg hnp', if_neg hopen, if_pos hlen]; rfl⟩
    · have hne : s.ch ≠ [] := fun hx => by rw [hx] at hlen; simp at hlen
      cases hc : s.cons with
      | notStarted => exact absurd hc hc0
      | recv => exact recvItem hc hne
      | done => exact absurd (hdr (Or.inl hc)).2.1 hne
      | exited => exact absurd (hdr (Or.inr hc)).2.1 hne
  | close =>
    have hopen : ¬ s.closed = true := fun hc => by
      rcases hcl.1 hc with h1 | h1 <;> rw [hp] at h1 <;> cases h1
    exact ⟨.close, _, by simp only [Method8.step, hp, if_neg hnp', if_neg hopen]; rfl⟩
  | done =>
    exact ⟨.producerDone, _, by simp only [Method8.step, hp, if_neg hnp']; rfl⟩
  | exited =>
    have hclosed : s.closed = true := hcl.2 (Or.inr hp)
    cases hc : s.cons with
    | notStarted => exact absurd hc hc0
    | recv =>
      cases hch : s.ch with
      | nil =>
        exact ⟨.recv, _, by simp only [Method8.step, hc, if_neg hnp', hch, if_pos hclosed]; rfl⟩
      | cons v rest => exact recvItem hc (by rw [hch]; simp)
    | done =>
      exact ⟨.consumerDone, _, by simp only [Method8.step, hc, if_neg hnp']; rfl⟩
    | exited =>
      have hw0 : s.wg = 0 := by rw [hwg, hp, hc]; simp
      exact ⟨.wait, _, by simp only [Method8.step, h2, hw0, hnp, and_self, if_true]; rfl⟩

theorem upTo_initial : ∀ (n : Nat) (a b : List Int), a ++ b = upTo n → a = upTo a.length := by
  intro n
  induction n with
  | zero =>
    intro a b h
    have : a = [] := (List.append_eq_nil.1 (by simpa [upTo] using h)).1
    subst this; rfl
  | succ n ih =>
    intro a b h
    rcases List.eq_nil_or_concat b with rfl | ⟨b', x, rfl⟩
    · rw [List.append_nil] at h
      rw [h, upTo_length]
    · rw [upTo_succ, List.concat_eq_append, ← List.append_assoc] at h
      exact ih a b' (List.append_inj_left' h rfl)

/-- C2: in `method8` every interleaving of main, producer and consumer keeps the
received values an initial segment of `1, 2, ..., 100`, never panics and is at
most 209 actions long; it can always be run on until `wg.Wait()` returns, and
whenever `method8` has returned the consumer has received exactly
`1, 2, ..., 100` in that order and has seen the end of the stream once. -/
theorem method8_delivers_in_order (sched : List Act8) (s : Method8)
    (h : Go.runSchedule Method8.step Method8.init sched = some s) :
    (s.main = 3 → s.received = upTo 100 ∧ s.ended = 1) ∧
      (s.received = upTo s.received.length ∧ s.received.length ≤ 100 ∧ s.ended ≤ 1) ∧
      s.panicked = false ∧ sched.length ≤ 209 ∧
      ∃ rest t, Go.runSchedule Method8.step s rest = some t ∧ t.main = 3 ∧
        t.received = upTo 100 ∧ t.ended = 1 := by
  have final : ∀ u : Method8, Method8.Inv u → u.main = 3 → u.received = upTo 100 ∧ u.ended = 1 := by
    intro u hu h3
    obtain ⟨hp, hc⟩ := hu.returned h3
    have hd := hu.drained (Or.inr hc)
    have hf := hu.fifo
    rw [hd.2.1, hp, List.append_nil] at hf
    exact ⟨hf, hd.1⟩
  have hinv := Go.runSchedule_invariant Method8.step Method8.Inv method8_inv_step sched _ _
    method8_inv_init h
  refine ⟨final s hinv, ⟨upTo_initial _ _ _ hinv.fifo, ?_, ?_⟩, hinv.noPanic, ?_, ?_⟩
  · have := congrArg List.length hinv.fifo
    rw [List.length_append, upTo_length] at this
    have := method8_sent_le s hinv
    omega
  · cases hc : s.cons with
    | notStarted => have := hinv.running (Or.inl hc); omega
    | recv => have := hinv.running (Or.inr hc); omega
    | done => have := (hinv.drained (Or.inl hc)).1; omega
    | exited => have := (hinv.drained (Or.inr hc)).1; omega
  · have := Go.runSchedule_length Method8.step Method8.Inv Method8.fuel method8_inv_step
      method8_fuel_step sched _ _ method8_inv_init h
    have h0 : Method8.init.fuel = 209 := by decide
    omega
  · obtain ⟨rest, t, hr, ht⟩ := Go.runSchedule_complete Method8.step Method8.Inv
      (fun s => s.main = 3) Method8.fuel method8_inv_step method8_fuel_step
      method8_progress s.fuel s le_rfl hinv
    have hti := Go.runSchedule_invariant Method8.step Method8.Inv method8_inv_step rest _ _ hinv hr
    exact ⟨rest, t, hr, ht, final t hti ht⟩

theorem method8_delivers_in_order_witness :
    ∃ rest t, Go.runSchedule Method8.step Method8.init
        ([.startProducer, .send, .send, .startConsumer, .recv] ++ rest) = some t ∧
      t.main = 3 ∧ t.received = upTo 100 ∧ t.ended = 1 := by
  obtain ⟨rest, t, hr, ht⟩ :=
    (method8_delivers_in_order [.startProducer, .send, .send, .startConsumer, .recv] _
      (by decide : _ = some
        { main := 2, wg := 2, ch := [2], closed := false, panicked := false,
          prod := .send 3, cons := .recv, received := [1], ended := 0 })).2.2.2.2
  exact ⟨rest, t, by rw [Go.runSchedule_append]; exact hr, ht⟩

theorem method4_inv_init (tasks : List Outcome) : Method4.Inv tasks Method4.init := by
  constructor <;> simp [Method4.init, Method4.ids]

theorem getElem?_set_of_some {β : Type} {l : List β} {k : Nat} {w : β} (new : β)
    (hk : l[k]? = some w) (j : Nat) :
    (l.set k new)[j]? = if k = j then some new else l[j]? := by
  have hlt : k < l.length := by
    by_contra hx
    rw [List.getElem?_eq_none (by omega)] at hk
    cases hk
  rw [List.getElem?_set]
  by_cases hkj : k = j
  · subst hkj; simp [hlt]
  · simp [hkj]

/-- A worker that is neither `exited` nor `fatal` moves from `w` to `w'`; the
other components change as the hypotheses say. -/
theorem method4_inv_move (tasks : List Outcome) (s t : Method4) (k : Nat) (w w' : Worker4)
    (hs : Method4.Inv tasks s) (hk : s.workers[k]? = some w)
    (hw : w ≠ .exited ∧ w ≠ .fatal)
    (hi : t.i = s.i) (hworkers : t.workers = s.workers.set k w')
    (hcloser : t.closer = s.closer) (hclosed : t.closed = s.closed)
    (hcrashed : t.crashed = s.crashed) (hreturned : t.returned = s.returned)
    (hwg : t.wg + (w.live : Int) = s.wg + (w'.live : Int))
    (hids : (t.ids = s.ids ∧ ((w = .sent ∨ w = .exited) ↔ (w' = .sent ∨ w' = .exited))) ∨
      (t.ids = s.ids ++ [k] ∧ ¬ (w = .sent ∨ w = .exited) ∧ (w' = .sent ∨ w' = .exited)))
    (hok : (w' = .finished ∨ w' = .sent ∨ w' = .exited) → tasks[k]? = some .returns)
    (hbad : (w' = .panicking ∨ w' = .fatal) → tasks[k]? = some .panics) :
    Method4.Inv tasks t := by
  obtain ⟨hlen, hbound, hcI, hnd, hmem, hokS, hbadS, hlive, hcl, hce, hcr, hret⟩ := hs
  have hget := fun j => getElem?_set_of_some w' hk j
  have hwmem : w ∈ s.workers := List.getElem?_mem hk
  have hnotExited : s.closer ≠ .exited := fun hx => by
    rcases hce hx w hwmem with h1 | h1
    · exact hw.1 h1
    · exact hw.2 h1
  constructor
  · rw [hworkers, hi, List.length_set]; exact hlen
  · rw [hi]; exact hbound
  · rw [hcloser, hi]; exact hcI
  · rcases hids with ⟨he, _⟩ | ⟨he, hn, _⟩
    · rw [he]; exact hnd
    · rw [he]
      refine List.Nodup.append hnd (List.nodup_singleton k) ?_
      intro x hx hx'
      rw [List.mem_singleton] at hx'
      subst hx'
      rcases (hmem x).1 hx with h1 | h1 <;> rw [hk] at h1 <;> cases h1 <;> simp at hn
  · intro j
    rw [hworkers, hget j]
    rcases hids with ⟨he, hiff⟩ | ⟨he, hn, hy⟩
    · rw [he, hmem j]
      by_cases hkj : k = j
      · subst hkj
        simp only [if_true, hk, Option.some.injEq]
        constructor
        · intro h; rcases hiff.1 (by rcases h with h | h <;> simp [h]) with h | h <;> simp [h]
        · intro h; rcases hiff.2 (by rcases h with h | h <;> simp [← h]) with h | h <;> simp [h]
      · simp only [if_neg hkj]
    · rw [he, List.mem_append, List.mem_singleton, hmem j]
      by_cases hkj : k = j
      · subst hkj
        simp only [if_true, Option.some.injEq, or_true, true_iff]
        rcases hy with h | h <;> simp [h]
      · simp only [if_neg hkj]
        constructor
        · intro h
          rcases h with h | h
          · exact h
          · exact absurd h.symm hkj
        · intro h; exact Or.inl h
  · intro j hj
    rw [hworkers, hget j] at hj
    by_cases hkj : k = j
    · subst hkj
      simp only [if_true, Option.some.injEq] at hj
      exact hok (by rcases hj with h | h | h <;> simp [← h])
    · simp only [if_neg hkj] at hj
      exact hokS j hj
  · intro j hj
    rw [hworkers, hget j] at hj
    by_cases hkj : k = j
    · subst hkj
      simp only [if_true, Option.some.injEq] at hj
      exact hbad (by rcases hj with h | h <;> simp [← h])
    · simp only [if_neg hkj] at hj
      exact hbadS j hj
  · have := Go.sum_map_set Worker4.live w' s.workers k w hk
    rw [hworkers]
    omega
  · rw [hclosed, hcloser]; exact hcl
  · intro hx; rw [hcloser] at hx; exact absurd hx hnotExited
  · intro hx
    rw [hcrashed] at hx
    obtain ⟨j, hj⟩ := hcr hx
    refine ⟨j, ?_⟩
    rw [hworkers, hget j]
    by_cases hkj : k = j
    · subst hkj
      rw [hk] at hj
      simp only [Option.some.injEq] at hj
      exact absurd hj hw.2
    · simp only [if_neg hkj]; exact hj
  · intro hx
    rw [hreturned] at hx
    exact absurd (hcl.1 (hret hx).1) hnotExited

theorem method4_inv_step (tasks : List Outcome) (s : Method4) (a : Act4) (t : Method4)
    (hs : Method4.Inv tasks s) (h : Method4.step tasks s a = some t) : Method4.Inv tasks t := by
  unfold Method4.step at h
  split at h
  · cases h
  have hs' := hs
  obtain ⟨hlen, hbound, hcI, hnd, hmem, hokS, hbadS, hlive, hcl, hce, hcr, hret⟩ := hs'
  cases a with
  | spawn =>
    simp only at h
    split at h
    · next hg =>
      cases h
      have hns : s.closer = .notStarted := by
        by_contra hx
        have := hcI hx; omega
      have hget : ∀ (j : Nat) (w : Worker4), w ≠ .running →
          ((s.workers ++ [Worker4.running])[j]? = some w ↔ s.workers[j]? = some w) := by
        intro j w hw
        by_cases hj : j < s.workers.length
        · rw [List.getElem?_append_left hj]
        · rw [List.getElem?_append_right (by omega), List.getElem?_eq_none (l := s.workers) (by omega)]
          constructor
          · intro hx
            by_cases h0 : j - s.workers.length = 0
            · rw [h0] at hx; simp at hx; exact absurd hx.symm hw
            · rw [List.getElem?_eq_none (by simp; omega)] at hx; cases hx
          · intro hx; cases hx
      constructor <;> dsimp only
      · simp; omega
      · omega
      · intro hx; exact absurd hns hx
      · exact hnd
      · intro k
        rw [hget k _ (by decide), hget k _ (by decide)]
        exact hmem k
      · intro k hk
        rw [hget k _ (by decide), hget k _ (by decide), hget k _ (by decide)] at hk
        exact hokS k hk
      · intro k hk
        rw [hget k _ (by decide), hget k _ (by decide)] at hk
        exact hbadS k hk
      · simp [hlive, Worker4.live]
      · exact hcl
      · intro hx; rw [hns] at hx; cases hx
      · intro hx
        obtain ⟨k, hk⟩ := hcr hx
        exact ⟨k, (hget k _ (by decide)).2 hk⟩
      · exact hret
    · cases h
  | startCloser =>
    simp only at h
    split at h
    · next hg =>
      cases h
      have hopen : ¬ s.closed = true := fun hx => by
        have := hcl.1 hx; rw [hg.2] at this; cases this
      constructor <;> dsimp only
      · exact hlen
      · exact hbound
      · intro _; omega
      · exact hnd
      · exact hmem
      · exact hokS
      · exact hbadS
      · exact hlive
      · constructor
        · intro hx; exact absurd hx hopen
        · intro hx; cases hx
      · intro hx; cases hx
      · exact hcr
      · exact hret
    · cases h
  | taskEnds k =>
    simp only at h
    split at h
    · next hw ht =>
      cases h
      exact method4_inv_move tasks s _ k .running .finished hs hw (by decide) rfl rfl rfl rfl rfl rfl
        (by simp [Worker4.live]) (Or.inl ⟨rfl, by decide⟩) (fun _ => ht) (fun hx => absurd hx (by decide))
    · next hw ht =>
      cases h
      exact method4_inv_move tasks s _ k .running .panicking hs hw (by decide) rfl rfl rfl rfl rfl rfl
        (by simp [Worker4.live]) (Or.inl ⟨rfl, by decide⟩) (fun hx => absurd hx (by decide)) (fun _ => ht)
    · cases h
  | sendResult k =>
    simp only at h
    split at h
    · next hw =>
      have hopen : ¬ s.closed = true := fun hx => by
        rcases hce (hcl.1 hx) _ (List.getElem?_mem hw) with h1 | h1 <;> cases h1
      rw [if_neg hopen] at h
      split at h
      · cases h
        refine method4_inv_move tasks s _ k .finished .sent hs hw (by decide) rfl rfl rfl rfl rfl rfl
          (by simp [Worker4.live]) (Or.inr ⟨?_, by decide, by decide⟩)
          (fun _ => hokS k (Or.inl hw)) (fun hx => absurd hx (by decide))
        simp [Method4.ids]
      · cases h
    · cases h
  | workerDone k =>
    simp only at h
    split at h
    · next hw =>
      cases h
      exact method4_inv_move tasks s _ k .sent .exited hs hw (by decide) rfl rfl rfl rfl rfl rfl
        (by simp [Worker4.live]) (Or.inl ⟨rfl, by decide⟩)
        (fun _ => hokS k (Or.inr (Or.inl hw))) (fun hx => absurd hx (by decide))
    · next hw =>
      cases h
      exact method4_inv_move tasks s _ k .panicking .fatal hs hw (by decide) rfl rfl rfl rfl rfl rfl
        (by simp [Worker4.live]) (Or.inl ⟨rfl, by decide⟩) (fun hx => absurd hx (by decide))
        (fun _ => hbadS k (Or.inl hw))
    · cases h
  | crash k =>
    simp only at h
    split at h
    · next hw =>
      cases h
      exact ⟨hlen, hbound, hcI, hnd, hmem, hokS, hbadS, hlive, hcl, hce, fun _ => ⟨k, hw⟩, hret⟩
    · cases h
  | close =>
    simp only at h
    split at h
    · next hg =>
      have hopen : ¬ s.closed = true := fun hx => by
        have := hcl.1 hx; rw [hg.1] at this; cases this
      rw [if_neg hopen] at h
      cases h
      have hz : (s.workers.map Worker4.live).sum = 0 := by
        have := hg.2; rw [hlive] at this; exact_mod_cast this
      have hall := Go.sum_map_eq_zero _ _ hz
      constructor <;> dsimp only
      · exact hlen
      · exact hbound
      · intro _; exact hcI (by rw [hg.1]; decide)
      · exact hnd
      · exact hmem
      · exact hokS
      · exact hbadS
      · exact hlive
      · simp
      · intro _ w hw
        have := hall w hw
        cases w <;> simp [Worker4.live] at this ⊢
      · exact hcr
      · intro hx; exact absurd (hret hx).1 hopen
    · cases h
  | collect =>
    simp only at h
    split at h
    · next hg =>
      split at h
      · next r rest hch =>
        cases h
        have hids : (s.collected ++ [r] ++ rest).map (fun r => r.TaskID) = s.ids := by
          simp [Method4.ids, hch]
        constructor <;> dsimp only
        · exact hlen
        · exact hbound
        · exact hcI
        · unfold Method4.ids; dsimp only; rw [hids]; exact hnd
        · intro k; unfold Method4.ids; dsimp only; rw [hids]; exact hmem k
        · exact hokS
        · exact hbadS
        · exact hlive
        · exact hcl
        · exact hce
        · exact hcr
        · intro hx; rw [hg.2] at hx; cases hx
      · next hch =>
        split at h
        · next hclosed =>
          cases h
          exact ⟨hlen, hbound, hcI, hnd, hmem, hokS, hbadS, hlive, hcl, hce, hcr,
            fun _ => ⟨hclosed, hch⟩⟩
        · cases h
    · cases h

theorem method4_fuel_step (tasks : List Outcome) (s : Method4) (a : Act4) (t : Method4)
    (_hs : Method4.Inv tasks s) (h : Method4.step tasks s a = some t) :
    Method4.fuel tasks t + 1 ≤ Method4.fuel tasks s := by
  unfold Method4.step at h
  split at h
  · cases h
  next hcr =>
  have hcr' : s.crashed = false := by simpa using hcr
  unfold Method4.fuel
  have move : ∀ (k : Nat) (w w' : Worker4), s.workers[k]? = some w →
      ((s.workers.set k w').map Worker4.fuel).sum + w.fuel =
        (s.workers.map Worker4.fuel).sum + w'.fuel :=
    fun k w w' hk => Go.sum_map_set Worker4.fuel w' s.workers k w hk
  cases a with
  | spawn =>
    simp only at h
    split at h
    · next hg =>
      cases h
      simp only [List.map_append, List.sum_append, List.map_cons, List.map_nil, List.sum_cons,
        List.sum_nil, Worker4.fuel]
      have : (tasks.length - s.i) * 5 = (tasks.length - (s.i + 1)) * 5 + 5 := by omega
      omega
    · cases h
  | startCloser =>
    simp only at h
    split at h
    · next hg => cases h; simp only [hg.2, Closer4.fuel]; omega
    · cases h
  | taskEnds k =>
    simp only at h
    split at h
    · next hw ht =>
      cases h
      have := move k _ .finished hw
      simp only [Worker4.fuel] at this ⊢
      omega
    · next hw ht =>
      cases h
      have := move k _ .panicking hw
      simp only [Worker4.fuel] at this ⊢
      omega
    · cases h
  | sendResult k =>
    simp only at h
    split at h
    · next hw =>
      split at h
      · cases h
        have := move k _ .panicking hw
        simp only [Worker4.fuel] at this ⊢
        omega
      · split at h
        · cases h
          have := move k _ .sent hw
          simp only [Worker4.fuel, List.length_append, List.length_singleton] at this ⊢
          omega
        · cases h
    · cases h
  | workerDone k =>
    simp only at h
    split at h
    · next hw =>
      cases h
      have := move k _ .exited hw
      simp only [Worker4.fuel] at this ⊢
      omega
    · next hw =>
      cases h
      have := move k _ .fatal hw
      simp only [Worker4.fuel] at this ⊢
      omega
    · cases h
  | crash k =>
    simp only at h
    split at h
    · cases h; simp [hcr']
    · cases h
  | close =>
    simp only at h
    split at h
    · next hg =>
      split at h
      · cases h; simp [hcr']
      · cases h; simp only [hg.1, Closer4.fuel]; omega
    · cases h
  | collect =>
    simp only at h
    split at h
    · next hg =>
      split at h
      · next r rest hch => cases h; simp only [hch, List.length_cons]; omega
      · split at h
        · cases h; simp [hg.2]; omega
        · cases h
    · cases h

theorem method4_noFailure (tasks : List Outcome) (hall : ∀ o ∈ tasks, o = Outcome.returns)
    (s : Method4) (hs : Method4.Inv tasks s) :
    s.crashed = false ∧ ∀ w ∈ s.workers, w ≠ .panicking ∧ w ≠ .fatal := by
  have hno : ∀ k : Nat, ¬ (s.workers[k]? = some .panicking ∨ s.workers[k]? = some .fatal) := by
    intro k hk
    have h1 := hs.bad k hk
    have := hall _ (List.getElem?_mem h1)
    cases this
  constructor
  · by_contra hx
    obtain ⟨k, hk⟩ := hs.crashedBy (by simpa using hx)
    exact hno k (Or.inr hk)
  · intro w hw
    obtain ⟨k, hk⟩ := Go.exists_index_of_mem hw
    constructor
    · intro hx; subst hx; exact hno k (Or.inl hk)
    · intro hx; subst hx; exact hno k (Or.inr hk)

theorem method4_progress (tasks : List Outcome) (hall : ∀ o ∈ tasks, o = Outcome.returns)
    (s : Method4) (hs : Method4.Inv tasks s) (hf : ¬ s.returned = true) :
    ∃ a t, Method4.step tasks s a = some t := by
  obtain ⟨hcr, hnf⟩ := method4_noFailure tasks hall s hs
  obtain ⟨hlen, hbound, hcI, hnd, hmem, hokS, hbadS, hlive, hcl, hce, _, hret⟩ := hs
  have hcr' : ¬ s.crashed = true := by simp [hcr]
  have hret' : s.returned = false := by simpa using hf
  by_cases hi : s.i < tasks.length
  · exact ⟨.spawn, _, by simp only [Method4.step, if_neg hcr', if_pos hi]; rfl⟩
  by_cases hc0 : s.closer = .notStarted
  · exact ⟨.startCloser, _, by
      simp only [Method4.step, if_neg hcr', hi, hc0, not_false_eq_true, and_self, if_true]; rfl⟩
  have collectItem : s.resultChan ≠ [] → ∃ a t, Method4.step tasks s a = some t := by
    intro hne
    cases hch : s.resultChan with
    | nil => exact absurd hch hne
    | cons r rest =>
      exact ⟨.collect, _, by
        simp only [Method4.step, if_neg hcr', hch, ne_eq, hc0, not_false_eq_true, hret',
          and_self, if_true]; rfl⟩
  by_cases hrun : ∃ w ∈ s.workers, w = Worker4.running
  · obtain ⟨w, hw, rfl⟩ := hrun
    obtain ⟨k, hk⟩ := Go.exists_index_of_mem hw
    have hklt : k < tasks.length := by
      have : k < s.workers.length := by
        by_contra hx
        rw [List.getElem?_eq_none (by omega)] at hk; cases hk
      omega
    have ht : tasks[k]? = some .returns := by
      rw [List.getElem?_eq_getElem hklt]
      exact congrArg some (hall _ (List.getElem_mem hklt))
    exact ⟨.taskEnds k, _, by simp only [Method4.step, if_neg hcr', hk, ht]; rfl⟩
  by_cases hfin : ∃ w ∈ s.workers, w = Worker4.finished
  · obtain ⟨w, hw, rfl⟩ := hfin
    obtain ⟨k, hk⟩ := Go.exists_index_of_mem hw
    have hopen : ¬ s.closed = true := fun hx => by
      rcases hce (hcl.1 hx) _ hw with h1 | h1 <;> cases h1
    by_cases hroom : s.resultChan.length < tasks.length
    · exact ⟨.sendResult k, _, by
        simp only [Method4.step, if_neg hcr', hk, if_neg hopen, if_pos hroom]; rfl⟩
    · apply collectItem
      intro hx
      rw [hx] at hroom
      have : 0 < s.workers.length := List.length_pos_of_mem hw
      simp only [List.length_nil] at hroom
      omega
  by_cases hsent : ∃ w ∈ s.workers, w = Worker4.sent
  · obtain ⟨w, hw, rfl⟩ := hsent
    obtain ⟨k, hk⟩ := Go.exists_index_of_mem hw
    exact ⟨.workerDone k, _, by simp only [Method4.step, if_neg hcr', hk]; rfl⟩
  have hallExited : ∀ w ∈ s.workers, Worker4.live w = 0 := by
    intro w hw
    have h1 := hnf w hw
    cases w with
    | running => exact absurd ⟨_, hw, rfl⟩ hrun
    | finished => exact absurd ⟨_, hw, rfl⟩ hfin
    | sent => exact absurd ⟨_, hw, rfl⟩ hsent
    | exited => rfl
    | panicking => exact absurd rfl h1.1
    | fatal => rfl
  have hwg : s.wg = 0 := by
    have := Go.sum_map_eq Worker4.live 0 s.workers hallExited
    rw [hlive, this]; simp
  cases hcz : s.closer with
  | notStarted => exact absurd hcz hc0
  | waiting =>
    have hopen : ¬ s.closed = true := fun hx => by
      have := hcl.1 hx; rw [hcz] at this; cases this
    exact ⟨.close, _, by
      simp only [Method4.step, if_neg hcr', hcz, hwg, and_self, if_true, if_neg hopen]; rfl⟩
  | exited =>
    have hclosed : s.closed = true := hcl.2 hcz
    cases hch : s.resultChan with
    | cons r rest => exact collectItem (by rw [hch]; simp)
    | nil =>
      exact ⟨.collect, _, by
        simp only [Method4.step, if_neg hcr', hch, ne_eq, hc0, not_false_eq_true, hret',
          and_self, if_true, hclosed]; rfl⟩

/-- Once `method4` has returned on tasks that all return, the collected
results carry every index once. -/
theorem method4_collected_all (tasks : List Outcome) (hall : ∀ o ∈ tasks, o = Outcome.returns)
    (s : Method4) (hs : Method4.Inv tasks s) (hr : s.returned = true) :
    s.collected.length = tasks.length ∧
      (s.collected.map (fun r => r.TaskID)).Perm (List.range tasks.length) := by
  obtain ⟨_, hnf⟩ := method4_noFailure tasks hall s hs
  obtain ⟨hclosed, hch⟩ := hs.ret hr
  have hce := hs.closerExited (hs.closedIff.1 hclosed)
  have hiN : s.i = tasks.length := hs.closerI (by rw [hs.closedIff.1 hclosed]; decide)
  have hids : s.ids = s.collected.map (fun r => r.TaskID) := by
    simp [Method4.ids, hch]
  have hperm : (s.collected.map (fun r => r.TaskID)).Perm (List.range tasks.length) := by
    rw [← hids, List.perm_ext_iff_of_nodup hs.idsNodup (List.nodup_range _)]
    intro k
    rw [hs.idsMem k, List.mem_range]
    constructor
    · intro hk
      have : k < s.workers.length := by
        by_contra hx
        rw [List.getElem?_eq_none (by omega)] at hk
        rcases hk with hk | hk <;> cases hk
      have := hs.len; omega
    · intro hk
      have hlt : k < s.workers.length := by have := hs.len; omega
      right
      rw [List.getElem?_eq_getElem hlt]
      rcases hce _ (List.getElem_mem hlt) with h1 | h1
      · rw [h1]
      · exact absurd h1 (hnf _ (List.getElem_mem hlt)).2
  refine ⟨?_, hperm⟩
  have := hperm.length_eq
  simpa using this

/-- C3: for every list of `N` tasks whose calls all return, and every
interleaving of `method4`: the process is never ended by a panic, the
interleaving is at most `5 N + 4` actions long and can always be run on until
`method4` returns, and whenever `method4` has returned the collecting loop has
read exactly `N` results whose `TaskID`s are the indices `0..N-1`, each once. -/
theorem method4_collects_all (tasks : List Outcome) (hall : ∀ o ∈ tasks, o = Outcome.returns)
    (sched : List Act4) (s : Method4)
    (h : Go.runSchedule (Method4.step tasks) Method4.init sched = some s) :
    (s.returned = true → s.collected.length = tasks.length ∧
        (s.collected.map (fun r => r.TaskID)).Perm (List.range tasks.length)) ∧
      s.crashed = false ∧ sched.length ≤ 5 * tasks.length + 4 ∧
      ∃ rest t, Go.runSchedule (Method4.step tasks) s rest = some t ∧ t.returned = true ∧
        t.collected.length = tasks.length ∧
        (t.collected.map (fun r => r.TaskID)).Perm (List.range tasks.length) := by
  have hinv := Go.runSchedule_invariant (Method4.step tasks) (Method4.Inv tasks)
    (method4_inv_step tasks) sched _ _ (method4_inv_init tasks) h
  refine ⟨method4_collected_all tasks hall s hinv, (method4_noFailure tasks hall s hinv).1, ?_, ?_⟩
  · have := Go.runSchedule_length (Method4.step tasks) (Method4.Inv tasks) (Method4.fuel tasks)
      (method4_inv_step tasks) (method4_fuel_step tasks) sched _ _ (method4_inv_init tasks) h
    have h0 : Method4.fuel tasks Method4.init = 5 * tasks.length + 4 := by
      simp [Method4.fuel, Method4.init, Closer4.fuel]; omega
    omega
  · obtain ⟨rest, t, hr, ht⟩ := Go.runSchedule_complete (Method4.step tasks) (Method4.Inv tasks)
      (fun s => s.returned = true) (Method4.fuel tasks) (method4_inv_step tasks)
      (method4_fuel_step tasks) (method4_progress tasks hall) (Method4.fuel tasks s) s le_rfl hinv
    have hti := Go.runSchedule_invariant (Method4.step tasks) (Method4.Inv tasks)
      (method4_inv_step tasks) rest _ _ hinv hr
    exact ⟨rest, t, hr, ht, method4_collected_all tasks hall t hti ht⟩

theorem method4_collects_all_witness :
    ∃ rest t, Go.runSchedule (Method4.step [.returns, .returns, .returns]) Method4.init
        ([.spawn, .taskEnds 0, .spawn, .spawn, .sendResult 0] ++ rest) = some t ∧
      t.returned = true ∧ t.collected.length = 3 ∧
      (t.collected.map (fun r => r.TaskID)).Perm (List.range 3) := by
  obtain ⟨rest, t, hr, ht⟩ :=
    (method4_collects_all [.returns, .returns, .returns] (by decide)
      [.spawn, .taskEnds 0, .spawn, .spawn, .sendResult 0] _
      (by decide : _ = some
        { i := 3, wg := 3, workers := [.sent, .running, .running], closer := .notStarted,
          resultChan := [{ TaskID := 0 }], closed := false, crashed := false, collected := [],
          returned := false })).2.2.2
  exact ⟨rest, t, by rw [Go.runSchedule_append]; exact hr, ht⟩

/-- C7 (as stated, refuted): with the three tasks of `method4` and the second
one panicking, the schedule in which that task ends first takes the process
down: nothing has been collected, no `Result` for task 1 exists, the two
sibling workers are still running and no further action is possible. -/
theorem method4_failure_aborts :
    ∃ s, Go.runSchedule (Method4.step [.returns, .panics, .returns]) Method4.init
        [.spawn, .spawn, .spawn, .startCloser, .taskEnds 1, .workerDone 1, .crash 1] = some s ∧
      s.crashed = true ∧ s.collected = [] ∧ s.resultChan = [] ∧ s.returned = false ∧
      s.workers = [.running, .fatal, .running] ∧
      ∀ a, Method4.step [.returns, .panics, .returns] s a = none := by
  refine ⟨{ i := 3, wg := 2, workers := [.running, .fatal, .running], closer := .waiting,
            resultChan := [], closed := false, crashed := true, collected := [],
            returned := false }, by decide, rfl, rfl, rfl, rfl, rfl, ?_⟩
  intro a
  rfl

theorem length_le_of_nodup_of_lt (l : List Nat) (n : Nat) (hnd : l.Nodup)
    (hlt : ∀ x ∈ l, x < n) : l.length ≤ n := by
  have hsub : l ⊆ List.range n := fun x hx => List.mem_range.2 (hlt x hx)
  have := (List.subperm_of_subset hnd hsub).length_le
  simpa using this

theorem method4_ids_lt (tasks : List Outcome) (s : Method4) (hs : Method4.Inv tasks s) :
    ∀ k ∈ s.ids, k < tasks.length := by
  intro k hk
  have hlt : k < s.workers.length := by
    by_contra hx
    have h1 := (hs.idsMem k).1 hk
    rw [List.getElem?_eq_none (by omega)] at h1
    rcases h1 with h1 | h1 <;> cases h1
  have := hs.len
  have := hs.bound
  omega

theorem method4_chan_le_ids (s : Method4) : s.resultChan.length ≤ s.ids.length := by
  simp [Method4.ids]

/-- C11: in `method4`, whose result channel has capacity `N = len(tasks)`, in
every reachable state at most `N` results are buffered; a worker that is about
to send finds the channel open and with room, so its send neither waits nor
panics, and every send that happens enqueues the result of that worker; when all
tasks return, the channel is closed only when the result of every one of the
`N` workers has been enqueued, and the collecting loop has ended only when it
has read `N` results. -/
theorem method4_channel_safe (tasks : List Outcome) (sched : List Act4) (s : Method4)
    (h : Go.runSchedule (Method4.step tasks) Method4.init sched = some s) :
    s.resultChan.length ≤ tasks.length ∧
      (∀ k : Nat, s.workers[k]? = some Worker4.finished →
        s.closed = false ∧ s.resultChan.length < tasks.length) ∧
      (∀ (k : Nat) (t : Method4), Method4.step tasks s (.sendResult k) = some t →
        t.resultChan = s.resultChan ++ [{ TaskID := k }] ∧ t.workers = s.workers.set k .sent ∧
          t.closed = false) ∧
      ((∀ o ∈ tasks, o = Outcome.returns) → s.closed = true →
        ∀ k, k < tasks.length → k ∈ s.ids) ∧
      ((∀ o ∈ tasks, o = Outcome.returns) → s.returned = true →
        s.collected.length = tasks.length ∧ s.resultChan = [] ∧ s.closed = true) := by
  have hinv := Go.runSchedule_invariant (Method4.step tasks) (Method4.Inv tasks)
    (method4_inv_step tasks) sched _ _ (method4_inv_init tasks) h
  have hlt := method4_ids_lt tasks s hinv
  have hfin : ∀ k : Nat, s.workers[k]? = some Worker4.finished →
      s.closed = false ∧ s.resultChan.length < tasks.length := by
    intro k hk
    constructor
    · by_contra hx
      have hc : s.closed = true := by simpa using hx
      rcases hinv.closerExited (hinv.closedIff.1 hc) _ (List.getElem?_mem hk) with h1 | h1 <;>
        cases h1
    · have hkn : k ∉ s.ids := fun hx => by
        rcases (hinv.idsMem k).1 hx with h1 | h1 <;> rw [hk] at h1 <;> cases h1
      have hklt : k < tasks.length := by
        have : k < s.workers.length := by
          by_contra hx
          rw [List.getElem?_eq_none (by omega)] at hk; cases hk
        have := hinv.len
        have := hinv.bound
        omega
      have hnd : (k :: s.ids).Nodup := List.nodup_cons.2 ⟨hkn, hinv.idsNodup⟩
      have := length_le_of_nodup_of_lt (k :: s.ids) tasks.length hnd (by
        intro x hx
        rcases List.mem_cons.1 hx with rfl | hx
        · exact hklt
        · exact hlt x hx)
      have := method4_chan_le_ids s
      simp only [List.length_cons] at *
      omega
  refine ⟨?_, hfin, ?_, ?_, ?_⟩
  · have := length_le_of_nodup_of_lt s.ids tasks.length hinv.idsNodup hlt
    have := method4_chan_le_ids s
    omega
  · intro k t ht
    unfold Method4.step at ht
    split at ht
    · cases ht
    simp only at ht
    split at ht
    · next hw =>
      obtain ⟨hopen, hroom⟩ := hfin k hw
      rw [if_neg (by simp [hopen]), if_pos hroom] at ht
      cases ht
      exact ⟨rfl, rfl, hopen⟩
    · cases ht
  · intro hall hc k hk
    have hce := hinv.closerExited (hinv.closedIff.1 hc)
    have hiN : s.i = tasks.length := hinv.closerI (by rw [hinv.closedIff.1 hc]; decide)
    have hlt' : k < s.workers.length := by have := hinv.len; omega
    refine (hinv.idsMem k).2 (Or.inr ?_)
    rw [List.getElem?_eq_getElem hlt']
    rcases hce _ (List.getElem_mem hlt') with h1 | h1
    · rw [h1]
    · exact absurd h1 ((method4_noFailure tasks hall s hinv).2 _ (List.getElem_mem hlt')).2
  · intro hall hr
    exact ⟨(method4_collected_all tasks hall s hinv hr).1, (hinv.ret hr).2, (hinv.ret hr).1⟩

theorem method4_channel_safe_witness :
    ([{ TaskID := 1 }, { TaskID := 0 }] : List Result).length ≤ 3 ∧
      ((false = false) ∧
        ([{ TaskID := 1 }, { TaskID := 0 }] : List Result).length <
          ([.returns, .returns, .returns] : List Outcome).length) :=
  have h := method4_channel_safe [.returns, .returns, .returns]
    [.spawn, .spawn, .spawn, .taskEnds 1, .taskEnds 0, .taskEnds 2, .sendResult 1, .sendResult 0]
    { i := 3, wg := 3, workers := [.sent, .sent, .finished], closer := .notStarted,
      resultChan := [{ TaskID := 1 }, { TaskID := 0 }], closed := false, crashed := false,
      collected := [], returned := false } (by decide)
  ⟨h.1, h.2.1 2 (by decide)⟩

end TaskTwo

namespace Go

/-- When in every state that is not final some enabled action uses up fuel,
every state can be run on to a final state. -/
theorem runSchedule_reach {σ α : Type} (step : σ → α → Option σ) (Inv : σ → Prop)
    (fin : σ → Prop) (fuel : σ → Nat)
    (hstep : ∀ s a t, Inv s → step s a = some t → Inv t)
    (hprog : ∀ s, Inv s → ¬ fin s → ∃ a t, step s a = some t ∧ fuel t < fuel s) :
    ∀ (n : Nat) (s : σ), fuel s ≤ n → Inv s →
      ∃ rest t, runSchedule step s rest = some t ∧ fin t := by
  intro n
  induction n with
  | zero =>
    intro s hn hs
    by_cases hf : fin s
    · exact ⟨[], s, rfl, hf⟩
    · obtain ⟨a, t, _, hlt⟩ := hprog s hs hf
      omega
  | succ n ih =>
    intro s hn hs
    by_cases hf : fin s
    · exact ⟨[], s, rfl, hf⟩
    · obtain ⟨a, t, hat, hlt⟩ := hprog s hs hf
      obtain ⟨rest, u, hr, hu⟩ := ih t (by omega) (hstep s a t hs hat)
      exact ⟨a :: rest, u, by simp only [runSchedule, hat]; exact hr, hu⟩

/-- When the action `c` is the only one that changes `flag`, and it only raises
it, the occurrences of `c` in a schedule count the raises. -/
theorem runSchedule_count {σ α : Type} [DecidableEq α] (step : σ → α → Option σ)
    (Inv : σ → Prop) (flag : σ → Bool) (c : α)
    (hstep : ∀ s a t, Inv s → step s a = some t → Inv t)
    (hflag : ∀ s a t, Inv s → step s a = some t →
      (a = c → flag s = false ∧ flag t = true) ∧ (a ≠ c → flag t = flag s)) :
    ∀ (sched : List α) (s t : σ), Inv s → runSchedule step s sched = some t →
      sched.count c + (if flag s = true then 1 else 0) = (if flag t = true then 1 else 0) := by
  intro sched
  induction sched with
  | nil =>
    intro s t _ h
    simp only [runSchedule, Option.some.injEq] at h
    subst h; simp
  | cons a rest ih =>
    intro s t hs h
    simp only [runSchedule] at h
    cases hsa : step s a with
    | none => rw [hsa] at h; cases h
    | some u =>
      rw [hsa] at h
      have h1 := ih u t (hstep s a u hs hsa) h
      obtain ⟨hc, hn⟩ := hflag s a u hs hsa
      by_cases hac : a = c
      · obtain ⟨hfs, hfu⟩ := hc hac
        rw [hac, List.count_cons_self]
        rw [hfu] at h1
        rw [hfs]
        simp only [if_true] at h1
        simp only [Bool.false_eq_true, if_false]
        omega
      · rw [List.count_cons_of_ne (fun hx => hac hx.symm)]
        rw [hn hac] at h1
        exact h1

end Go

namespace TaskTwo

/-- C12: `method7` has a schedule in which the values sent on `ch` are taken
out by two processes: the select loop of main receives 1, `receive` receives
2, ..., 10, and both see the channel closed; no consumer receives every value
from 1 to 10. -/
theorem method7_two_consumers :
    ∃ s, Go.runSchedule Method7.step Method7.init Method7.raced = some s ∧
      s.enqueued = [1, 2, 3, 4, 5, 6, 7, 8, 9, 10] ∧ s.selected = [1] ∧
      s.received = [2, 3, 4, 5, 6, 7, 8, 9, 10] ∧ s.ch = [] ∧ s.closed = true ∧
      s.receiver = .exited ∧ s.main = 3 ∧ s.timedOut = false ∧ s.panicked = false := by
  refine ⟨{ main := 3, ch := [], closed := true, panicked := false, sender := .exited,
            receiver := .exited, received := [2, 3, 4, 5, 6, 7, 8, 9, 10], selected := [1],
            enqueued := [1, 2, 3, 4, 5, 6, 7, 8, 9, 10], timedOut := false }, by decide,
          rfl, rfl, rfl, rfl, rfl, rfl, rfl, rfl, rfl⟩

theorem method7_inv_init : Method7.Inv Method7.init := by
  constructor <;> simp [Method7.init, Sender7.sent, upTo]

theorem method7_inv_step (s : Method7) (a : Act7) (t : Method7) (hs : Method7.Inv s)
    (h : Method7.step s a = some t) : Method7.Inv t := by
  obtain ⟨hnp, hss, hsr, hlog, hroom, hcl⟩ := hs
  have hnp' : ¬ s.panicked = true := by simp [hnp]
  cases a with
  | startSend =>
    simp only [Method7.step] at h
    split at h
    · next hg =>
      cases h
      have hp : s.sender = .notStarted := hss.2 hg.1
      rw [hp] at hlog hcl
      constructor <;> dsimp only
      · exact hnp
      · simp
      · intro i hi; cases hi; omega
      · simpa [Sender7.sent] using hlog
      · exact hroom
      · simpa using hcl
    · cases h
  | startReceive =>
    simp only [Method7.step] at h
    split at h
    · next hg =>
      cases h
      have hp : s.sender ≠ .notStarted := fun hx => by have := hss.1 hx; omega
      exact ⟨hnp, by simp [hp], hsr, hlog, hroom, hcl⟩
    · cases h
  | send =>
    simp only [Method7.step] at h
    split at h
    · next i hp =>
      rw [if_neg hnp'] at h
      have hopen : ¬ s.closed = true := fun hc => by
        have := hcl.1 hc; rw [hp] at this; cases this
      rw [if_neg hopen] at h
      split at h
      · cases h
        obtain ⟨hi1, hi10⟩ := hsr i hp
        have hm : s.main ≠ 0 := fun h0 => by have := hss.2 h0; rw [hp] at this; cases this
        rw [hp] at hlog
        simp only [Sender7.sent] at hlog
        by_cases hx : i + 1 ≤ 10
        · simp only [if_pos hx]
          constructor <;> dsimp only
          · exact hnp
          · simp [hm]
          · intro k hk; cases hk; omega
          · rw [hlog]
            have := upTo_succ (i - 1)
            rw [show i - 1 + 1 = i by omega] at this
            simpa [Sender7.sent] using this.symm
          · simp; omega
          · simp [hopen]
        · simp only [if_neg hx]
          have hi : i = 10 := by omega
          constructor <;> dsimp only
          · exact hnp
          · simp [hm]
          · intro k hk; cases hk
          · rw [hlog]
            have := upTo_succ (i - 1)
            rw [show i - 1 + 1 = i by omega] at this
            rw [← this, hi]; rfl
          · simp; omega
          · simp [hopen]
      · cases h
    all_goals cases h
  | close =>
    simp only [Method7.step] at h
    split at h
    · next hp =>
      rw [if_neg hnp'] at h
      have hopen : ¬ s.closed = true := fun hc => by
        have := hcl.1 hc; rw [hp] at this; cases this
      rw [if_neg hopen] at h
      cases h
      have hm : s.main ≠ 0 := fun h0 => by have := hss.2 h0; rw [hp] at this; cases this
      rw [hp] at hlog
      constructor <;> dsimp only
      · exact hnp
      · simp [hm]
      · intro k hk; cases hk
      · simpa [Sender7.sent] using hlog
      · exact hroom
      · simp
    all_goals cases h
  | receive =>
    simp only [Method7.step] at h
    split at h
    · rw [if_neg hnp'] at h
      split at h
      · next v rest hch =>
        cases h
        rw [hch] at hroom
        exact ⟨hnp, hss, hsr, hlog, by simp at hroom ⊢; omega, hcl⟩
      · split at h
        · cases h; exact ⟨hnp, hss, hsr, hlog, hroom, hcl⟩
        · cases h
    all_goals cases h
  | selectRecv =>
    simp only [Method7.step] at h
    split at h
    · next hg =>
      split at h
      · next v rest hch =>
        cases h
        rw [hch] at hroom
        exact ⟨hnp, hss, hsr, hlog, by simp at hroom ⊢; omega, hcl⟩
      · split at h
        · cases h
          refine ⟨hnp, ?_, hsr, hlog, hroom, hcl⟩
          dsimp only
          constructor
          · intro hx; have := hss.1 hx; omega
          · intro hx; cases hx
        · cases h
    · cases h
  | selectTimeout =>
    simp only [Method7.step] at h
    split at h
    · next hg =>
      cases h
      refine ⟨hnp, ?_, hsr, hlog, hroom, hcl⟩
      dsimp only
      constructor
      · intro hx; have := hss.1 hx; omega
      · intro hx; cases hx
    · cases h
  | selectDefault =>
    simp only [Method7.step] at h
    split at h
    · cases h; exact ⟨hnp, hss, hsr, hlog, hroom, hcl⟩
    · cases h

theorem method7_closed_step (s : Method7) (a : Act7) (t : Method7) (hs : Method7.Inv s)
    (h : Method7.step s a = some t) :
    (a = .close → s.closed = false ∧ t.closed = true) ∧ (a ≠ .close → t.closed = s.closed) := by
  obtain ⟨hnp, hss, hsr, hlog, hroom, hcl⟩ := hs
  have hnp' : ¬ s.panicked = true := by simp [hnp]
  cases a with
  | startSend =>
    simp only [Method7.step] at h
    split at h
    · cases h; exact ⟨fun hx => (by cases hx), fun _ => rfl⟩
    · cases h
  | startReceive =>
    simp only [Method7.step] at h
    split at h
    · cases h; exact ⟨fun hx => (by cases hx), fun _ => rfl⟩
    · cases h
  | send =>
    simp only [Method7.step] at h
    split at h
    · next i hp =>
      rw [if_neg hnp'] at h
      have hopen : ¬ s.closed = true := fun hc => by
        have := hcl.1 hc; rw [hp] at this; cases this
      rw [if_neg hopen] at h
      split at h
      · cases h; exact ⟨fun hx => (by cases hx), fun _ => rfl⟩
      · cases h
    all_goals cases h
  | close =>
    simp only [Method7.step] at h
    split at h
    · next hp =>
      rw [if_neg hnp'] at h
      have hopen : ¬ s.closed = true := fun hc => by
        have := hcl.1 hc; rw [hp] at this; cases this
      rw [if_neg hopen] at h
      cases h
      exact ⟨fun _ => ⟨by simpa using hopen, rfl⟩, fun hx => absurd rfl hx⟩
    all_goals cases h
  | receive =>
    simp only [Method7.step] at h
    split at h
    · rw [if_neg hnp'] at h
      split at h
      · cases h; exact ⟨fun hx => (by cases hx), fun _ => rfl⟩
      · split at h
        · cases h; exact ⟨fun hx => (by cases hx), fun _ => rfl⟩
        · cases h
    all_goals cases h
  | selectRecv =>
    simp only [Method7.step] at h
    split at h
    · split at h
      · cases h; exact ⟨fun hx => (by cases hx), fun _ => rfl⟩
      · split at h
        · cases h; exact ⟨fun hx => (by cases hx), fun _ => rfl⟩
        · cases h
    · cases h
  | selectTimeout =>
    simp only [Method7.step] at h
    split at h
    · cases h; exact ⟨fun hx => (by cases hx), fun _ => rfl⟩
    · cases h
  | selectDefault =>
    simp only [Method7.step] at h
    split at h
    · cases h; exact ⟨fun hx => (by cases hx), fun _ => rfl⟩
    · cases h

theorem method8_closed_step (s : Method8) (a : Act8) (t : Method8) (hs : Method8.Inv s)
    (h : Method8.step s a = some t) :
    (a = .close → s.closed = false ∧ t.closed = true) ∧ (a ≠ .close → t.closed = s.closed) := by
  have hnp' : ¬ s.panicked = true := by simp [hs.noPanic]
  have hcl := hs.closedIff
  cases a with
  | startProducer =>
    simp only [Method8.step] at h
    split at h
    · cases h; exact ⟨fun hx => (by cases hx), fun _ => rfl⟩
    · cases h
  | startConsumer =>
    simp only [Method8.step] at h
    split at h
    · cases h; exact ⟨fun hx => (by cases hx), fun _ => rfl⟩
    · cases h
  | send =>
    simp only [Method8.step] at h
    split at h
    · next i hp =>
      rw [if_neg hnp'] at h
      have hopen : ¬ s.closed = true := fun hc => by
        rcases hcl.1 hc with h1 | h1 <;> rw [hp] at h1 <;> cases h1
      rw [if_neg hopen] at h
      split at h
      · cases h; exact ⟨fun hx => (by cases hx), fun _ => rfl⟩
      · cases h
    all_goals cases h
  | close =>
    simp only [Method8.step] at h
    split at h
    · next hp =>
      rw [if_neg hnp'] at h
      have hopen : ¬ s.closed = true := fun hc => by
        rcases hcl.1 hc with h1 | h1 <;> rw [hp] at h1 <;> cases h1
      rw [if_neg hopen] at h
      cases h
      exact ⟨fun _ => ⟨by simpa using hopen, rfl⟩, fun hx => absurd rfl hx⟩
    all_goals cases h
  | producerDone =>
    simp only [Method8.step] at h
    split at h
    · rw [if_neg hnp'] at h
      cases h; exact ⟨fun hx => (by cases hx), fun _ => rfl⟩
    all_goals cases h
  | recv =>
    simp only [Method8.step] at h
    split at h
    · rw [if_neg hnp'] at h
      split at h
      · cases h; exact ⟨fun hx => (by cases hx), fun _ => rfl⟩
      · split at h
        · cases h; exact ⟨fun hx => (by cases hx), fun _ => rfl⟩
        · cases h
    all_goals cases h
  | consumerDone =>
    simp only [Method8.step] at h
    split at h
    · rw [if_neg hnp'] at h
      cases h; exact ⟨fun hx => (by cases hx), fun _ => rfl⟩
    all_goals cases h
  | wait =>
    simp only [Method8.step] at h
    split at h
    · cases h; exact ⟨fun hx => (by cases hx), fun _ => rfl⟩
    · cases h

/-- While the channel of `method7` is open, `send` can take its next step. -/
theorem method7_sender_progress (s : Method7) (hs : Method7.Inv s) (hf : ¬ s.closed = true) :
    ∃ a t, Method7.step s a = some t ∧ t.sender.fuel < s.sender.fuel := by
  obtain ⟨hnp, hss, hsr, hlog, hroom, hcl⟩ := hs
  have hnp' : ¬ s.panicked = true := by simp [hnp]
  cases hp : s.sender with
  | notStarted =>
    have h0 : s.main = 0 := hss.1 hp
    exact ⟨.startSend, { s with main := 1, sender := .send 1 },
      by simp only [Method7.step, h0, hnp, and_self, if_true], by simp [Sender7.fuel]⟩
  | send i =>
    obtain ⟨hi1, hi10⟩ := hsr i hp
    have hlen : s.ch.length < 10 := by
      rw [hlog, hp, upTo_length] at hroom
      simp only [Sender7.sent] at hroom
      omega
    refine ⟨.send,
      { s with
        ch := s.ch ++ [(i : Int)]
        enqueued := s.enqueued ++ [(i : Int)]
        sender := if i + 1 ≤ 10 then .send (i + 1) else .close }, ?_, ?_⟩
    · simp only [Method7.step, hp, if_neg hnp', if_neg hf, if_pos hlen]
    · dsimp only
      by_cases hx : i + 1 ≤ 10
      · simp only [if_pos hx, Sender7.fuel]; omega
      · simp only [if_neg hx, Sender7.fuel]; omega
  | close =>
    exact ⟨.close, { s with closed := true, sender := .exited },
      by simp only [Method7.step, hp, if_neg hnp', if_neg hf], by simp [Sender7.fuel]⟩
  | exited => exact absurd (hcl.2 hp) hf

theorem method7_closed_log (s : Method7) (hs : Method7.Inv s) (hc : s.closed = true) :
    s.enqueued = upTo 10 := by
  have := hs.log
  rwa [hs.closedIff.1 hc] at this

theorem method8_closed_log (s : Method8) (hs : Method8.Inv s) (hc : s.closed = true) :
    s.enqueued = upTo 100 := by
  have := hs.fifo
  unfold Method8.enqueued
  rcases hs.closedIff.1 hc with hp | hp <;> rwa [hp] at this

theorem method7_close_once (sched : List Act7) (s : Method7)
    (h : Go.runSchedule Method7.step Method7.init sched = some s) :
    s.panicked = false ∧ sched.count .close ≤ 1 ∧ (s.closed = true ↔ sched.count .close = 1) ∧
      (∀ t, Method7.step s .close = some t →
        s.closed = false ∧ s.enqueued = upTo 10 ∧ t.closed = true) ∧
      (s.closed = true →
        s.enqueued = upTo 10 ∧ Method7.step s .send = none ∧ Method7.step s .close = none) ∧
      (∀ rest t, Go.runSchedule Method7.step s rest = some t → s.closed = true →
        t.closed = true ∧ t.enqueued = s.enqueued ∧ rest.count .close = 0) ∧
      ∃ rest t, Go.runSchedule Method7.step s rest = some t ∧ t.closed = true := by
  have hinv := Go.runSchedule_invariant Method7.step Method7.Inv method7_inv_step sched _ _
    method7_inv_init h
  have hcount := Go.runSchedule_count Method7.step Method7.Inv (fun s => s.closed) Act7.close
    method7_inv_step method7_closed_step
  have hc0 := hcount sched _ _ method7_inv_init h
  simp only [Method7.init, Bool.false_eq_true, if_false, Nat.add_zero] at hc0
  refine ⟨hinv.noPanic, ?_, ?_, ?_, ?_, ?_, ?_⟩
  · split at hc0 <;> omega
  · constructor
    · intro hc; rw [if_pos hc] at hc0; exact hc0
    · intro hc
      by_contra hx
      rw [if_neg hx] at hc0
      omega
  · intro t ht
    have hstep := (method7_closed_step s .close t hinv ht).1 rfl
    refine ⟨hstep.1, ?_, hstep.2⟩
    have hlog := hinv.log
    cases hp : s.sender with
    | close => rw [hp] at hlog; exact hlog
    | notStarted => simp [Method7.step, hp] at ht
    | send i => simp [Method7.step, hp] at ht
    | exited => simp [Method7.step, hp] at ht
  · intro hc
    have hp := hinv.closedIff.1 hc
    exact ⟨method7_closed_log s hinv hc, by simp [Method7.step, hp], by simp [Method7.step, hp]⟩
  · intro rest t hr hc
    have h1 := hcount rest s t hinv hr
    have hti := Go.runSchedule_invariant Method7.step Method7.Inv method7_inv_step rest _ _ hinv hr
    simp only [hc, if_true] at h1
    have htc : t.closed = true := by
      by_contra hx
      rw [if_neg hx] at h1
      omega
    refine ⟨htc, ?_, ?_⟩
    · rw [method7_closed_log t hti htc, method7_closed_log s hinv hc]
    · rw [if_pos htc] at h1; omega
  · exact Go.runSchedule_reach Method7.step Method7.Inv (fun s => s.closed = true)
      (fun s => s.sender.fuel) method7_inv_step method7_sender_progress s.sender.fuel s le_rfl hinv

theorem method8_close_once (sched : List Act8) (s : Method8)
    (h : Go.runSchedule Method8.step Method8.init sched = some s) :
    s.panicked = false ∧ sched.count .close ≤ 1 ∧ (s.closed = true ↔ sched.count .close = 1) ∧
      (∀ t, Method8.step s .close = some t →
        s.closed = false ∧ s.enqueued = upTo 100 ∧ t.closed = true) ∧
      (s.closed = true →
        s.enqueued = upTo 100 ∧ Method8.step s .send = none ∧ Method8.step s .close = none) ∧
      (∀ rest t, Go.runSchedule Method8.step s rest = some t → s.closed = true →
        t.closed = true ∧ t.enqueued = s.enqueued ∧ rest.count .close = 0) ∧
      ∃ rest t, Go.runSchedule Method8.step s rest = some t ∧ t.closed = true := by
  have hinv := Go.runSchedule_invariant Method8.step Method8.Inv method8_inv_step sched _ _
    method8_inv_init h
  have hcount := Go.runSchedule_count Method8.step Method8.Inv (fun s => s.closed) Act8.close
    method8_inv_step method8_closed_step
  have hc0 := hcount sched _ _ method8_inv_init h
  simp only [Method8.init, Bool.false_eq_true, if_false, Nat.add_zero] at hc0
  refine ⟨hinv.noPanic, ?_, ?_, ?_, ?_, ?_, ?_⟩
  · split at hc0 <;> omega
  · constructor
    · intro hc; rw [if_pos hc] at hc0; exact hc0
    · intro hc
      by_contra hx
      rw [if_neg hx] at hc0
      omega
  · intro t ht
    have hstep := (method8_closed_step s .close t hinv ht).1 rfl
    refine ⟨hstep.1, ?_, hstep.2⟩
    have hlog := hinv.fifo
    unfold Method8.enqueued
    cases hp : s.prod with
    | close => rw [hp] at hlog; exact hlog
    | notStarted => simp [Method8.step, hp] at ht
    | send i => simp [Method8.step, hp] at ht
    | done => simp [Method8.step, hp] at ht
    | exited => simp [Method8.step, hp] at ht
  · intro hc
    refine ⟨method8_closed_log s hinv hc, ?_, ?_⟩
    · rcases hinv.closedIff.1 hc with hp | hp <;> simp [Method8.step, hp]
    · rcases hinv.closedIff.1 hc with hp | hp <;> simp [Method8.step, hp]
  · intro rest t hr hc
    have h1 := hcount rest s t hinv hr
    have hti := Go.runSchedule_invariant Method8.step Method8.Inv method8_inv_step rest _ _ hinv hr
    simp only [hc, if_true] at h1
    have htc : t.closed = true := by
      by_contra hx
      rw [if_neg hx] at h1
      omega
    refine ⟨htc, ?_, ?_⟩
    · rw [method8_closed_log t hti htc, method8_closed_log s hinv hc]
    · rw [if_pos htc] at h1; omega
  · obtain ⟨rest, t, hr, ht⟩ := Go.runSchedule_complete Method8.step Method8.Inv
      (fun s => s.main = 3) Method8.fuel method8_inv_step method8_fuel_step
      method8_progress s.fuel s le_rfl hinv
    have hti := Go.runSchedule_invariant Method8.step Method8.Inv method8_inv_step rest _ _ hinv hr
    exact ⟨rest, t, hr, hti.closedIff.2 (Or.inr (hti.returned ht).1)⟩

/-- C13: in `method7` (producer `send`, 10 items) and in `method8` (100 items),
along every interleaving: no send or close ever meets a closed channel; the
close step is taken at most once, and the channel is closed exactly when it
has been taken; it is taken only in a state where all items have been
enqueued; once the channel is closed it stays closed in every continuation,
nothing more is enqueued and no further close step is taken; and every
interleaving can be run on to a state where the channel is closed. -/
theorem producers_close_exactly_once (sched7 : List Act7) (s7 : Method7) (sched8 : List Act8)
    (s8 : Method8) (h7 : Go.runSchedule Method7.step Method7.init sched7 = some s7)
    (h8 : Go.runSchedule Method8.step Method8.init sched8 = some s8) :
    (s7.panicked = false ∧ sched7.count .close ≤ 1 ∧
      (s7.closed = true ↔ sched7.count .close = 1) ∧
      (∀ t, Method7.step s7 .close = some t →
        s7.closed = false ∧ s7.enqueued = upTo 10 ∧ t.closed = true) ∧
      (s7.closed = true →
        s7.enqueued = upTo 10 ∧ Method7.step s7 .send = none ∧ Method7.step s7 .close = none) ∧
      (∀ rest t, Go.runSchedule Method7.step s7 rest = some t → s7.closed = true →
        t.closed = true ∧ t.enqueued = s7.enqueued ∧ rest.count .close = 0) ∧
      ∃ rest t, Go.runSchedule Method7.step s7 rest = some t ∧ t.closed = true) ∧
    (s8.panicked = false ∧ sched8.count .close ≤ 1 ∧
      (s8.closed = true ↔ sched8.count .close = 1) ∧
      (∀ t, Method8.step s8 .close = some t →
        s8.closed = false ∧ s8.enqueued = upTo 100 ∧ t.closed = true) ∧
      (s8.closed = true →
        s8.enqueued = upTo 100 ∧ Method8.step s8 .send = none ∧ Method8.step s8 .close = none) ∧
      (∀ rest t, Go.runSchedule Method8.step s8 rest = some t → s8.closed = true →
        t.closed = true ∧ t.enqueued = s8.enqueued ∧ rest.count .close = 0) ∧
      ∃ rest t, Go.runSchedule Method8.step s8 rest = some t ∧ t.closed = true) :=
  ⟨method7_close_once sched7 s7 h7, method8_close_once sched8 s8 h8⟩

theorem producers_close_exactly_once_witness :
    (∃ rest t, Go.runSchedule Method7.step Method7.init ([.startSend, .send] ++ rest) = some t ∧
        t.closed = true) ∧
      ∃ rest t, Go.runSchedule Method8.step Method8.init ([.startProducer, .send] ++ rest) =
          some t ∧ t.closed = true := by
  have h := producers_close_exactly_once [.startSend, .send]
    { main := 1, ch := [1], closed := false, panicked := false, sender := .send 2,
      receiver := .notStarted, received := [], selected := [], enqueued := [1],
      timedOut := false }
    [.startProducer, .send]
    { main := 1, wg := 1, ch := [1], closed := false, panicked := false, prod := .send 2,
      cons := .notStarted, received := [], ended := 0 } (by decide) (by decide)
  obtain ⟨r7, t7, hr7, ht7⟩ := h.1.2.2.2.2.2.2
  obtain ⟨r8, t8, hr8, ht8⟩ := h.2.2.2.2.2.2.2
  exact ⟨⟨r7, t7, by rw [Go.runSchedule_append]; exact hr7, ht7⟩,
    ⟨r8, t8, by rw [Go.runSchedule_append]; exact hr8, ht8⟩⟩

theorem crashPhase_le (w : Option Worker4) : Worker4.crashPhase w ≤ 3 := by
  unfold Worker4.crashPhase
  split <;> omega

/-- While the process is alive and task `k` is one that panics, some enabled
action brings the end of the process nearer: the next spawn, the end of the
call `t()` of worker `k`, its deferred `wg.Done()`, or the crash. -/
theorem method4_crash_progress (tasks : List Outcome) (k : Nat)
    (hk : tasks[k]? = some Outcome.panics) (s : Method4) (hs : Method4.Inv tasks s)
    (hf : ¬ s.crashed = true) :
    ∃ a t, Method4.step tasks s a = some t ∧
      Method4.crashFuel tasks k t < Method4.crashFuel tasks k s := by
  have hklt : k < tasks.length := by
    by_contra hx
    rw [List.getElem?_eq_none (by omega)] at hk; cases hk
  have hfs : Method4.crashFuel tasks k s =
      (tasks.length - s.i) + Worker4.crashPhase s.workers[k]? := by
    simp only [Method4.crashFuel, if_neg hf]
  by_cases hi : s.i < tasks.length
  · refine ⟨.spawn, { s with i := s.i + 1, wg := s.wg + 1, workers := s.workers ++ [.running] },
      by simp only [Method4.step, if_neg hf, if_pos hi], ?_⟩
    rw [hfs]
    simp only [Method4.crashFuel, if_neg hf]
    have hph : Worker4.crashPhase (s.workers ++ [Worker4.running])[k]? ≤
        Worker4.crashPhase s.workers[k]? := by
      by_cases hlt : k < s.workers.length
      · rw [List.getElem?_append_left hlt]
      · rw [List.getElem?_eq_none (l := s.workers) (by omega)]
        exact crashPhase_le _
    omega
  · have hlt : k < s.workers.length := by
      have := hs.len
      have := hs.bound
      omega
    have hget : s.workers[k]? = some s.workers[k] := List.getElem?_eq_getElem hlt
    have hnot : ¬ (s.workers[k]? = some .finished ∨ s.workers[k]? = some .sent ∨
        s.workers[k]? = some .exited) := fun hx => by
      have := hs.ok k hx
      rw [hk] at this; cases this
    cases hw : s.workers[k] with
    | running =>
      rw [hw] at hget
      refine ⟨.taskEnds k, { s with workers := s.workers.set k .panicking },
        by simp only [Method4.step, if_neg hf, hget, hk], ?_⟩
      rw [hfs]
      simp only [Method4.crashFuel, if_neg hf]
      rw [getElem?_set_of_some .panicking hget k, hget]
      simp [Worker4.crashPhase]
    | panicking =>
      rw [hw] at hget
      refine ⟨.workerDone k, { s with wg := s.wg - 1, workers := s.workers.set k .fatal },
        by simp only [Method4.step, if_neg hf, hget], ?_⟩
      rw [hfs]
      simp only [Method4.crashFuel, if_neg hf]
      rw [getElem?_set_of_some .fatal hget k, hget]
      simp [Worker4.crashPhase]
    | fatal =>
      rw [hw] at hget
      refine ⟨.crash k, { s with crashed := true },
        by simp only [Method4.step, if_neg hf, hget], ?_⟩
      rw [hfs, hget]
      simp [Method4.crashFuel, Worker4.crashPhase]
    | finished => rw [hw] at hget; exact absurd (Or.inl hget) hnot
    | sent => rw [hw] at hget; exact absurd (Or.inr (Or.inl hget)) hnot
    | exited => rw [hw] at hget; exact absurd (Or.inr (Or.inr hget)) hnot

/-- A task that panics has no `Result`, so fewer than `len(tasks)` results
exist. -/
theorem method4_results_lt (tasks : List Outcome) (s : Method4) (hs : Method4.Inv tasks s)
    (k : Nat) (hk : tasks[k]? = some Outcome.panics) :
    (∀ r ∈ s.collected ++ s.resultChan, r.TaskID ≠ k) ∧
      (s.collected ++ s.resultChan).length < tasks.length := by
  have hklt : k < tasks.length := by
    by_contra hx
    rw [List.getElem?_eq_none (by omega)] at hk; cases hk
  have hkn : k ∉ s.ids := fun hx => by
    have h1 : tasks[k]? = some Outcome.returns := by
      rcases (hs.idsMem k).1 hx with h1 | h1
      · exact hs.ok k (Or.inr (Or.inl h1))
      · exact hs.ok k (Or.inr (Or.inr h1))
    rw [hk] at h1; cases h1
  constructor
  · intro r hr hx
    exact hkn (List.mem_map.2 ⟨r, hr, hx⟩)
  · have hnd : (k :: s.ids).Nodup := List.nodup_cons.2 ⟨hkn, hs.idsNodup⟩
    have hle := length_le_of_nodup_of_lt (k :: s.ids) tasks.length hnd (by
      intro x hx
      rcases List.mem_cons.1 hx with rfl | hx
      · exact hklt
      · exact method4_ids_lt tasks s hs x hx)
    have hlen : s.ids.length = (s.collected ++ s.resultChan).length := by
      simp [Method4.ids]
    simp only [List.length_cons] at hle
    omega

/-- C7 (amended): a failure is not captured and not isolated.  A `Result`
exists only for a task that returned, and at most one for each task.  When
task `k` of the list panics: no `Result` carries its id and fewer than
`len(tasks)` results exist, in every reachable state; every reachable state can
be run on until the panic has ended the process, with fewer than `len(tasks)`
results collected and no worker or collector able to take another step; and a
run that has come to a state where no action is possible has ended in that
way.  The process ends only through a task that panicked.  When no task panics
the collector has one result for every task once `method4` returns. -/
theorem method4_failure_not_captured (tasks : List Outcome) (sched : List Act4) (s : Method4)
    (h : Go.runSchedule (Method4.step tasks) Method4.init sched = some s) :
    (∀ r ∈ s.collected ++ s.resultChan, tasks[r.TaskID]? = some Outcome.returns) ∧
      ((s.collected ++ s.resultChan).map (fun r => r.TaskID)).Nodup ∧
      (∀ k : Nat, tasks[k]? = some Outcome.panics →
        (∀ r ∈ s.collected ++ s.resultChan, r.TaskID ≠ k) ∧
        (s.collected ++ s.resultChan).length < tasks.length ∧
        (∃ rest t, Go.runSchedule (Method4.step tasks) s rest = some t ∧ t.crashed = true ∧
          t.collected.length < tasks.length ∧ ∀ a, Method4.step tasks t a = none) ∧
        ((∀ a, Method4.step tasks s a = none) → s.crashed = true)) ∧
      (s.crashed = true →
        (∃ k : Nat, tasks[k]? = some Outcome.panics) ∧ ∀ a, Method4.step tasks s a = none) ∧
      ((∀ o ∈ tasks, o = Outcome.returns) → s.returned = true →
        (s.collected.map (fun r => r.TaskID)).Perm (List.range tasks.length)) := by
  have hinv := Go.runSchedule_invariant (Method4.step tasks) (Method4.Inv tasks)
    (method4_inv_step tasks) sched _ _ (method4_inv_init tasks) h
  have hdead : ∀ u : Method4, u.crashed = true → ∀ a, Method4.step tasks u a = none := by
    intro u hc a
    simp only [Method4.step, hc, if_true]
  refine ⟨?_, hinv.idsNodup, ?_, ?_, ?_⟩
  · intro r hr
    have hmem : r.TaskID ∈ s.ids := List.mem_map.2 ⟨r, hr, rfl⟩
    rcases (hinv.idsMem _).1 hmem with h1 | h1
    · exact hinv.ok _ (Or.inr (Or.inl h1))
    · exact hinv.ok _ (Or.inr (Or.inr h1))
  · intro k hk
    obtain ⟨hno, hlt⟩ := method4_results_lt tasks s hinv k hk
    refine ⟨hno, hlt, ?_, ?_⟩
    · obtain ⟨rest, t, hr, ht⟩ := Go.runSchedule_reach (Method4.step tasks) (Method4.Inv tasks)
        (fun u => u.crashed = true) (Method4.crashFuel tasks k) (method4_inv_step tasks)
        (method4_crash_progress tasks k hk) (Method4.crashFuel tasks k s) s le_rfl hinv
      have hti := Go.runSchedule_invariant (Method4.step tasks) (Method4.Inv tasks)
        (method4_inv_step tasks) rest _ _ hinv hr
      have := (method4_results_lt tasks t hti k hk).2
      refine ⟨rest, t, hr, ht, ?_, hdead t ht⟩
      simp only [List.length_append] at this
      omega
    · intro hstuck
      by_contra hc
      obtain ⟨a, t, hat, _⟩ := method4_crash_progress tasks k hk s hinv hc
      rw [hstuck a] at hat
      cases hat
  · intro hc
    obtain ⟨k, hk⟩ := hinv.crashedBy hc
    exact ⟨⟨k, hinv.bad k (Or.inr hk)⟩, hdead s hc⟩
  · intro hall hr
    exact (method4_collected_all tasks hall s hinv hr).2

theorem method4_failure_not_captured_witness :
    (([⟨0⟩] : List Result) ++ []).length < 3 ∧
      ∃ rest t, Go.runSchedule (Method4.step [.returns, .panics, .returns]) Method4.init
          ([.spawn, .spawn, .spawn, .startCloser, .taskEnds 0, .sendResult 0, .collect,
            .taskEnds 1] ++ rest) = some t ∧
        t.crashed = true ∧ t.collected.length < 3 ∧
        ∀ a, Method4.step [.returns, .panics, .returns] t a = none := by
  have h := (method4_failure_not_captured [.returns, .panics, .returns]
    [.spawn, .spawn, .spawn, .startCloser, .taskEnds 0, .sendResult 0, .collect, .taskEnds 1]
    { i := 3, wg := 3, workers := [.sent, .panicking, .running], closer := .waiting,
      resultChan := [], closed := false, crashed := false, collected := [⟨0⟩],
      returned := false } (by decide)).2.2.1 1 rfl
  obtain ⟨rest, t, hr, ht⟩ := h.2.2.1
  exact ⟨h.2.1, rest, t, by rw [Go.runSchedule_append]; exact hr, ht⟩

end TaskTwo
